import Mathlib

/-!
# processThread.c: two-level parallel trapezoid integration

A shallow embedding of `Technical Projects/threads&Processes/processThread.c`.

* `double` values are carried by `Dbl`: a finite value is a rational, and the
  single value `Dbl.nonfin` stands for the non-finite results (infinities and
  NaN) that IEEE arithmetic produces, for instance on a division by zero or an
  overflow. The two zeros are not told apart. The jobs considered are those with
  finite bounds.
* The program is embedded twice. The definitions of the namespace `Binary64`
  follow the arithmetic of the code: every operation on doubles rounds its exact
  result to binary64 (nearest, ties to even, gradual underflow, overflow to an
  infinity), one operation at a time. The definitions outside that namespace
  use the operations without rounding; they serve the statements that are made
  over exact arithmetic (the comparison of the parallel sum with a single call,
  the totals up to a tolerance) and the statements in which no rounding occurs.
* `size_t` values are natural numbers, `int` values are integers; the
  conversions between them and `double` are the C conversions, and a
  conversion whose result does not fit the target type has no defined result
  (`none`).
* The child process of `integrateWithChildProcess` is the list of workers it
  builds plus the order in which the worker threads commit to `totalArea`
  (every `pthread_create` succeeds; a thread touches shared memory only in its
  locked update of `totalArea`).
* The parent process (`main`, the parent branch of `integrateWithChildProcess`
  and the `SIGCHLD` handler `childProcessEnded`) is a transition system whose
  events are the parent's own statements, the exit of a child and the delivery
  of a pending `SIGCHLD`. The handler may run between any two statements of the
  parent, also between the read and the write of `numChildren++`; system calls
  interrupted by the handler are restarted.
* The table `FUNCS` is not used: the function to integrate is a parameter.
-/

namespace ProcessThread

/-! ## Constants -/

/-- Value of `#define NUM_THREADS 8`. -/
def NUM_THREADS : Nat := 8

/-- Value of `#define MAX_CHILDREN 2`. -/
def MAX_CHILDREN : Int := 2

/-- Value of `#define NUM_FUNCS 3`. -/
def NUM_FUNCS : Nat := 3

/-- Largest value of the C type `int` (32 bits). -/
def INT_MAX : Int := 2147483647

/-- Smallest value of the C type `int` (32 bits). -/
def INT_MIN : Int := -2147483648

/-- Number of values of the C type `size_t` (64 bits): arithmetic on `size_t` is modulo this. -/
def SIZE_MOD : Int := 18446744073709551616

/-! ## The type `double` -/

/-- C `double`: a finite value, carried exactly, or a non-finite one (infinity or NaN).
An operation with a non-finite operand is non-finite; IEEE arithmetic differs from this only
for a finite value divided by an infinity, which the program never computes (its divisors
are `numSteps`, `NUM_THREADS` and `2`). -/
inductive Dbl where
  | fin (q : ℚ)
  | nonfin
  deriving DecidableEq

namespace Dbl

/-- Sum of two doubles: `x + y`. -/
def add : Dbl → Dbl → Dbl
  | fin x, fin y => fin (x + y)
  | _, _ => nonfin

/-- Difference of two doubles: `x - y`. -/
def sub : Dbl → Dbl → Dbl
  | fin x, fin y => fin (x - y)
  | _, _ => nonfin

/-- Product of two doubles: `x * y`. -/
def mul : Dbl → Dbl → Dbl
  | fin x, fin y => fin (x * y)
  | _, _ => nonfin

/-- Quotient of two doubles: `x / y`; a division by zero gives a non-finite result. -/
def div : Dbl → Dbl → Dbl
  | fin x, fin y => if y = 0 then nonfin else fin (x / y)
  | _, _ => nonfin

instance : Add Dbl := ⟨add⟩
instance : Sub Dbl := ⟨sub⟩
instance : Mul Dbl := ⟨mul⟩
instance : Div Dbl := ⟨div⟩
instance : Zero Dbl := ⟨fin 0⟩

/-- Comparison `x <= y` of two doubles. It is false as soon as one side is not finite: this
is the C comparison for NaN, while an infinity, which C does order, is not told apart from
NaN here; only finite bounds are compared in what follows. -/
def le : Dbl → Dbl → Prop
  | fin x, fin y => x ≤ y
  | _, _ => False

instance : LE Dbl := ⟨le⟩

instance decLe (x y : Dbl) : Decidable (x ≤ y) :=
  match x, y with
  | fin a, fin b => inferInstanceAs (Decidable (a ≤ b))
  | fin _, nonfin => isFalse (fun h => h)
  | nonfin, _ => isFalse (fun h => h)

/-- Conversion `int` to `double`. -/
def ofInt (i : Int) : Dbl := fin i

/-- Conversion `size_t` to `double`. -/
def ofSize (n : Nat) : Dbl := fin n

/-- The C library function `floor`. -/
def floor : Dbl → Dbl
  | fin x => fin ⌊x⌋
  | nonfin => nonfin

/-- Integral part of a rational, rounding toward zero. -/
def trunc (x : ℚ) : Int := if 0 ≤ x then ⌊x⌋ else ⌈x⌉

/-- Conversion `double` to `int`: the integral part, undefined when it does not fit an `int`. -/
def toInt : Dbl → Option Int
  | fin x => if INT_MIN ≤ trunc x ∧ trunc x ≤ INT_MAX then some (trunc x) else none
  | nonfin => none

/-- Conversion `double` to `size_t`: the integral part, undefined when it does not fit a `size_t`. -/
def toSize : Dbl → Option Nat
  | fin x => if 0 ≤ trunc x ∧ trunc x < SIZE_MOD then some (trunc x).toNat else none
  | nonfin => none

end Dbl

/-- Addition of doubles is associative and commutative with neutral element `0` (finite
values are exact, and a non-finite operand gives a non-finite sum). -/
instance : AddCommMonoid Dbl where
  add_assoc x y z := by
    cases x <;> cases y <;> cases z <;>
      first | rfl | exact congrArg Dbl.fin (add_assoc _ _ _)
  zero_add x := by
    cases x <;> first | rfl | exact congrArg Dbl.fin (zero_add _)
  add_zero x := by
    cases x <;> first | rfl | exact congrArg Dbl.fin (add_zero _)
  add_comm x y := by
    cases x <;> cases y <;> first | rfl | exact congrArg Dbl.fin (add_comm _ _)
  nsmul := nsmulRec

/-! ## Workers and `integrateTrap` -/

/-- The fields of `struct Worker` that carry data: the range, the step count and the
function to integrate. The pointers `totalArea` and `lock` designate the one accumulator
of the child process, which `integrateTrap` receives and returns explicitly. -/
structure Worker where
  rangeStart : Dbl
  rangeEnd : Dbl
  numSteps : Nat
  func : Dbl → Dbl

/-- Value of the local `dx` of `integrateTrap`: `rangeSize / numSteps`. -/
def integrateTrap.dx (worker : Worker) : Dbl :=
  (worker.rangeEnd - worker.rangeStart) / Dbl.ofSize worker.numSteps

/-- Value of the local `area` after the first `i` iterations of the `for` loop of
`integrateTrap`. -/
def integrateTrap.loop (func : Dbl → Dbl) (rangeStart dx : Dbl) : Nat → Dbl
  | 0 => Dbl.fin 0
  | i + 1 =>
    integrateTrap.loop func rangeStart dx i
      + dx * (func (rangeStart + Dbl.ofSize i * dx)
              + func (rangeStart + Dbl.ofSize (i + 1) * dx)) / Dbl.fin 2

/-- Value of the local `area` of `integrateTrap` when the loop is left. -/
def integrateTrap.area (worker : Worker) : Dbl :=
  integrateTrap.loop worker.func worker.rangeStart (integrateTrap.dx worker) worker.numSteps

/-- The thread body `integrateTrap`: the value of the shared `totalArea` after the locked
update, given its value when the lock is taken. -/
def integrateTrap (worker : Worker) (totalArea : Dbl) : Dbl :=
  totalArea + integrateTrap.area worker

/-! ## `getValidInput` -/

/-- The value returned by `getValidInput`, from the number of items that `scanf` has read
and the values it has stored. -/
def getValidInput (numRead : Nat) (start finish : Dbl) (numSteps funcId : Nat) : Bool :=
  numRead = 4 ∧ start ≤ finish ∧ 0 < numSteps ∧ funcId < NUM_FUNCS

/-! ## The child branch of `integrateWithChildProcess` -/

/-- Value of the local `threadRange`. -/
def threadRange (rangeStart rangeEnd : Dbl) : Dbl :=
  (rangeEnd - rangeStart) / Dbl.ofInt NUM_THREADS

/-- Field `rangeStart` given to worker `i`. -/
def workerRangeStart (rangeStart rangeEnd : Dbl) (i : Nat) : Dbl :=
  rangeStart + Dbl.ofInt i * threadRange rangeStart rangeEnd

/-- Field `rangeEnd` given to worker `i`. -/
def workerRangeEnd (rangeStart rangeEnd : Dbl) (i : Nat) : Dbl :=
  rangeStart + Dbl.ofInt (i + 1) * threadRange rangeStart rangeEnd

/-- Field `numSteps` given to worker `i` and the value of `stepsDone` after iteration `i`,
from the value of `stepsDone` before it. The last worker gets `numSteps - stepsDone`,
computed in `size_t`; the others get `floor(numSteps / NUM_THREADS)`, which is also added to
the `int` variable `stepsDone` through a `double`. -/
def workerNumSteps (numSteps : Nat) (stepsDone : Int) (i : Nat) : Option (Nat × Int) :=
  if i = NUM_THREADS - 1 then
    some ((((numSteps : Int) - stepsDone) % SIZE_MOD).toNat, stepsDone)
  else do
    let n ← (Dbl.floor (Dbl.ofSize (numSteps / NUM_THREADS))).toSize
    let sd ← (Dbl.ofInt stepsDone + Dbl.floor (Dbl.ofSize (numSteps / NUM_THREADS))).toInt
    pure (n, sd)

/-- The worker that iteration `i` stores in `workers[i]` when it computes `steps` for it. -/
def workerAt (rangeStart rangeEnd : Dbl) (func : Dbl → Dbl) (i steps : Nat) : Worker :=
  ⟨workerRangeStart rangeStart rangeEnd i, workerRangeEnd rangeStart rangeEnd i, steps, func⟩

/-- One iteration of the loop that fills `workers[i]`: from `stepsDone` and the workers built
so far to `stepsDone` and the workers built after iteration `i`. -/
def loopBody (rangeStart rangeEnd : Dbl) (numSteps : Nat) (func : Dbl → Dbl)
    (st : Int × List Worker) (i : Nat) : Option (Int × List Worker) := do
  let r ← workerNumSteps numSteps st.1 i
  pure (r.2, st.2 ++ [workerAt rangeStart rangeEnd func i r.1])

/-- The array `workers` after the first loop of the child branch, `func` being
`FUNCS[funcId]`. -/
def buildWorkers (rangeStart rangeEnd : Dbl) (numSteps : Nat) (func : Dbl → Dbl) :
    Option (List Worker) :=
  ((List.range NUM_THREADS).foldlM (loopBody rangeStart rangeEnd numSteps func) (0, [])).map
    (fun st => st.2)

/-- The step counts of a list of workers, in the order of the array. -/
def stepCounts (ws : List Worker) : List Nat :=
  ws.map Worker.numSteps

/-- Value of `totalArea` once the threads of `order` have run their locked update, in that
order, starting from `totalArea = 0`. -/
def joinAll (order : List Worker) : Dbl :=
  order.foldl (fun totalArea worker => integrateTrap worker totalArea) (Dbl.fin 0)

/-- The workers of `ws` taken in the order of the indices `order`. -/
def inOrder (ws : List Worker) (order : List Nat) : List Worker :=
  order.filterMap (fun i => ws[i]?)

/-- Child branch of `integrateWithChildProcess`: the total that is printed after the second
loop has joined every thread, when the threads commit in the order `order`. -/
def integrateWithChildProcess.child (rangeStart rangeEnd : Dbl) (numSteps : Nat)
    (func : Dbl → Dbl) (order : List Nat) : Option Dbl :=
  (buildWorkers rangeStart rangeEnd numSteps func).map (fun ws => joinAll (inOrder ws order))

/-- Sum of the partial areas of the workers, in the order of the array. -/
def sumAreas (ws : List Worker) : Dbl :=
  (ws.map integrateTrap.area).sum

/-! ## The parent process: `main`, the parent branch of `integrateWithChildProcess`, and
the handler `childProcessEnded` -/

/-- Control points of the parent process. -/
inductive Pc where
  /-- At the test `numChildren < MAX_CHILDREN` at the head of the loop body of `main`. -/
  | check
  /-- In `integrateWithChildProcess`, `fork` has returned a positive pid and `numChildren++`
  has not started. -/
  | forked
  /-- In `numChildren++`: the value `t` has been read and `t + 1` is not yet written back. -/
  | loaded (t : Int)
  /-- In the loop `while (wait(NULL) > 0)` that follows the main loop. `wait` collects a
  terminated child when there is one, blocks while the only children left are running, and
  returns a negative value once no child is left. -/
  | drain
  /-- The parent has left through `exit(0)` in the branch `childPid < 0`. -/
  | exitForkError
  /-- The parent has left through the `exit(0)` that ends `main`. -/
  | exitMain
  deriving DecidableEq

/-- The parent is between the return of `fork` and the end of `numChildren++`. -/
def Pc.incrementing : Pc → Bool
  | Pc.forked => true
  | Pc.loaded _ => true
  | _ => false

/-- State of the parent process together with its children. -/
structure Sched where
  /-- Control point of the parent. -/
  pc : Pc
  /-- The global `numChildren`. -/
  numChildren : Int
  /-- Child processes that were forked and have not terminated. -/
  running : Nat
  /-- Child processes that have terminated and are not yet collected by `wait`. -/
  zombies : Nat
  /-- A `SIGCHLD` is pending for the parent (pending signals of one kind do not queue). -/
  sigPending : Bool
  deriving DecidableEq

/-- What can happen next. -/
inductive Event where
  /-- The parent runs up to its next control point; `valid` is the value returned by
  `getValidInput` and `forkOk` tells whether `fork` returns a positive pid (rather than a
  negative value), should the parent call them. -/
  | parent (valid forkOk : Bool)
  /-- One running child terminates (`exit(0)` at the end of the child branch). -/
  | childExit
  /-- The pending `SIGCHLD` is delivered and the handler runs. A `SIGCHLD` is raised by the
  termination of a child only. -/
  | sigchld
  deriving DecidableEq

/-- The state when `main` enters its loop. -/
def main.init : Sched := ⟨Pc.check, 0, 0, 0, false⟩

/-- The signal handler `childProcessEnded`: `numChildren--`. -/
def childProcessEnded (s : Sched) : Sched :=
  { s with numChildren := s.numChildren - 1 }

/-- The parent's side of `integrateWithChildProcess` up to the return of `fork`: a positive
pid leads to `numChildren++`, a negative one to `exit(0)` at once. -/
def integrateWithChildProcess.parent (s : Sched) (forkOk : Bool) : Sched :=
  if forkOk then { s with pc := Pc.forked, running := s.running + 1 }
  else { s with pc := Pc.exitForkError }

/-- One step of the parent, from its control point to the next one. `none`: the parent
cannot move (it has exited, or it is blocked in `wait`). -/
def main.step (s : Sched) (valid forkOk : Bool) : Option Sched :=
  match s.pc with
  | Pc.check =>
    if s.numChildren < MAX_CHILDREN then
      if valid then some (integrateWithChildProcess.parent s forkOk)
      else some { s with pc := Pc.drain }
    else some s
  | Pc.forked => some { s with pc := Pc.loaded s.numChildren }
  | Pc.loaded t => some { s with pc := Pc.check, numChildren := t + 1 }
  | Pc.drain =>
    if 0 < s.zombies then some { s with zombies := s.zombies - 1 }
    else if s.running = 0 then some { s with pc := Pc.exitMain }
    else none
  | Pc.exitForkError => none
  | Pc.exitMain => none

/-- The parent has exited. -/
def Pc.exited : Pc → Bool
  | Pc.exitForkError => true
  | Pc.exitMain => true
  | _ => false

/-- One event of the system; `none` when the event cannot happen in state `s`. Once the
parent has exited nothing more is observed. -/
def step (s : Sched) : Event → Option Sched
  | Event.parent valid forkOk => main.step s valid forkOk
  | Event.childExit =>
    if s.pc.exited then none
    else if 0 < s.running then
      some { s with running := s.running - 1, zombies := s.zombies + 1, sigPending := true }
    else none
  | Event.sigchld =>
    if s.pc.exited then none
    else if s.sigPending then some (childProcessEnded { s with sigPending := false })
    else none

/-- The state after a sequence of events, when each of them can happen in turn. -/
def run (s : Sched) : List Event → Option Sched
  | [] => some s
  | e :: es => (step s e).bind (fun s1 => run s1 es)

/-! ## Invariants of the parent process -/

/-- What holds of every state the parent can reach: the counter is at most the cap, and at
most 1 while an increment is under way; every child that is running, and the pending
signal, is accounted for by the counter or by the increment under way. -/
def Inv (s : Sched) : Prop :=
  s.numChildren ≤ 2
  ∧ ((s.running : Int) + (if s.sigPending then 1 else 0)
      ≤ s.numChildren + (if s.pc.incrementing then 1 else 0))
  ∧ (s.pc = Pc.forked → s.numChildren ≤ 1)
  ∧ (∀ t, s.pc = Pc.loaded t → s.numChildren ≤ t ∧ t ≤ 1)


/-- What holds once the parent has entered the `wait` loop: it is in the loop or has left
through the final `exit(0)` with no child left; no child is added. -/
def Draining (running total : Nat) (s : Sched) : Prop :=
  (s.pc = Pc.drain ∨ (s.pc = Pc.exitMain ∧ s.running = 0 ∧ s.zombies = 0))
  ∧ s.running ≤ running ∧ s.running + s.zombies ≤ total

/-! ## Binary64 arithmetic -/

/-- Nearest integer to a rational, a tie going to the even neighbour. -/
def roundHalfEven (x : ℚ) : Int :=
  if x - ⌊x⌋ < 1 / 2 then ⌊x⌋
  else if 1 / 2 < x - ⌊x⌋ then ⌊x⌋ + 1
  else if ⌊x⌋ % 2 = 0 then ⌊x⌋ else ⌊x⌋ + 1

/-- Number of binary digits of `n`, computed with at most `fuel` halvings. -/
def bitLength.go : Nat → Nat → Nat
  | 0, _ => 0
  | fuel + 1, n => if n = 0 then 0 else bitLength.go fuel (n / 2) + 1

/-- Number of binary digits of `n`: `2 ^ (bitLength n - 1) <= n < 2 ^ bitLength n` for
`n > 0`. -/
def bitLength (n : Nat) : Nat := bitLength.go n n

/-- Binary exponent of a rational other than 0: the integer `e` with
`2 ^ e <= |x| < 2 ^ (e + 1)`. It is the difference `k` of the bit lengths of the numerator
and the denominator, or `k - 1`. -/
def exponent (x : ℚ) : Int :=
  if (2 : ℚ) ^ ((bitLength x.num.natAbs : Int) - bitLength x.den) ≤ |x|
  then (bitLength x.num.natAbs : Int) - bitLength x.den
  else (bitLength x.num.natAbs : Int) - bitLength x.den - 1

/-- Exponent of the spacing of the binary64 values around `x`: `e - 52` when
`2 ^ e <= |x| < 2 ^ (e + 1)` (53 significant bits), and never less than `-1074`, the
exponent of the spacing of the subnormal values. -/
def quantumExp (x : ℚ) : Int := max (exponent x - 52) (-1074)

/-- Spacing of the binary64 values around `x`. -/
def quantum (x : ℚ) : ℚ := 2 ^ quantumExp x

/-- Rounding to nearest, ties to even, onto the multiples of the quantum (53 significant
bits, exponent not bounded above). -/
def rnd (x : ℚ) : ℚ := roundHalfEven (x / quantum x) * quantum x

/-- Rounding of an exact result to binary64: the nearest value, ties to even; a result that
rounds to `2 ^ 1024` or beyond in magnitude overflows to an infinity. -/
def Dbl.round : Dbl → Dbl
  | Dbl.fin x => if |rnd x| < 2 ^ 1024 then Dbl.fin (rnd x) else Dbl.nonfin
  | Dbl.nonfin => Dbl.nonfin

namespace Binary64

/-! The program with the arithmetic of `double`: each operation rounds its exact result, one
operation at a time (no fused multiply-add, no wider intermediate format). -/

/-- Binary64 `x + y`. -/
def add (x y : Dbl) : Dbl := Dbl.round (x + y)

/-- Binary64 `x - y`. -/
def sub (x y : Dbl) : Dbl := Dbl.round (x - y)

/-- Binary64 `x * y`. -/
def mul (x y : Dbl) : Dbl := Dbl.round (x * y)

/-- Binary64 `x / y`. -/
def div (x y : Dbl) : Dbl := Dbl.round (x / y)

/-- Conversion `int` to `double`. -/
def ofInt (i : Int) : Dbl := Dbl.round (Dbl.ofInt i)

/-- Conversion `size_t` to `double`. -/
def ofSize (n : Nat) : Dbl := Dbl.round (Dbl.ofSize n)

/-- Value of the local `dx` of `integrateTrap`. -/
def integrateTrap.dx (worker : Worker) : Dbl :=
  div (sub worker.rangeEnd worker.rangeStart) (ofSize worker.numSteps)

/-- Value of the local `area` after the first `i` iterations of the loop of `integrateTrap`. -/
def integrateTrap.loop (func : Dbl → Dbl) (rangeStart dx : Dbl) : Nat → Dbl
  | 0 => Dbl.fin 0
  | i + 1 =>
    add (integrateTrap.loop func rangeStart dx i)
      (div (mul dx (add (func (add rangeStart (mul (ofSize i) dx)))
                        (func (add rangeStart (mul (ofSize (i + 1)) dx)))))
           (ofInt 2))

/-- Value of the local `area` of `integrateTrap` when the loop is left. -/
def integrateTrap.area (worker : Worker) : Dbl :=
  integrateTrap.loop worker.func worker.rangeStart (integrateTrap.dx worker) worker.numSteps

/-- The thread body `integrateTrap`: `totalArea` after the locked update. -/
def integrateTrap (worker : Worker) (totalArea : Dbl) : Dbl :=
  add totalArea (integrateTrap.area worker)

/-- Value of the local `threadRange`. -/
def threadRange (rangeStart rangeEnd : Dbl) : Dbl :=
  div (sub rangeEnd rangeStart) (ofInt NUM_THREADS)

/-- Field `rangeStart` given to worker `i`. -/
def workerRangeStart (rangeStart rangeEnd : Dbl) (i : Nat) : Dbl :=
  add rangeStart (mul (ofInt i) (threadRange rangeStart rangeEnd))

/-- Field `rangeEnd` given to worker `i`. -/
def workerRangeEnd (rangeStart rangeEnd : Dbl) (i : Nat) : Dbl :=
  add rangeStart (mul (ofInt (i + 1)) (threadRange rangeStart rangeEnd))

/-- The worker that iteration `i` stores in `workers[i]` when it computes `steps` for it. -/
def workerAt (rangeStart rangeEnd : Dbl) (func : Dbl → Dbl) (i steps : Nat) : Worker :=
  ⟨workerRangeStart rangeStart rangeEnd i, workerRangeEnd rangeStart rangeEnd i, steps, func⟩

/-- One iteration of the loop that fills `workers[i]`. -/
def loopBody (rangeStart rangeEnd : Dbl) (numSteps : Nat) (func : Dbl → Dbl)
    (st : Int × List Worker) (i : Nat) : Option (Int × List Worker) := do
  let r ← workerNumSteps numSteps st.1 i
  pure (r.2, st.2 ++ [workerAt rangeStart rangeEnd func i r.1])

/-- The array `workers` after the first loop of the child branch. -/
def buildWorkers (rangeStart rangeEnd : Dbl) (numSteps : Nat) (func : Dbl → Dbl) :
    Option (List Worker) :=
  ((List.range NUM_THREADS).foldlM (loopBody rangeStart rangeEnd numSteps func) (0, [])).map
    (fun st => st.2)

/-- Value of `totalArea` once the threads of `order` have run their locked update, in that
order, starting from `totalArea = 0`. -/
def joinAll (order : List Worker) : Dbl :=
  order.foldl (fun totalArea worker => integrateTrap worker totalArea) (Dbl.fin 0)

/-- Child branch of `integrateWithChildProcess`: the total that is printed, when the threads
commit in the order `order`. -/
def integrateWithChildProcess.child (rangeStart rangeEnd : Dbl) (numSteps : Nat)
    (func : Dbl → Dbl) (order : List Nat) : Option Dbl :=
  (buildWorkers rangeStart rangeEnd numSteps func).map (fun ws => joinAll (inOrder ws order))

end Binary64

/-! # Theorems -/

/-! ## Arithmetic of `Dbl` -/

@[simp] theorem Dbl.fin_add_fin (x y : ℚ) : Dbl.fin x + Dbl.fin y = Dbl.fin (x + y) := rfl

@[simp] theorem Dbl.fin_sub_fin (x y : ℚ) : Dbl.fin x - Dbl.fin y = Dbl.fin (x - y) := rfl

@[simp] theorem Dbl.fin_mul_fin (x y : ℚ) : Dbl.fin x * Dbl.fin y = Dbl.fin (x * y) := rfl

theorem Dbl.fin_div_fin (x y : ℚ) :
    Dbl.fin x / Dbl.fin y = if y = 0 then Dbl.nonfin else Dbl.fin (x / y) := rfl

theorem Dbl.fin_div_of_ne (x : ℚ) {y : ℚ} (h : y ≠ 0) :
    Dbl.fin x / Dbl.fin y = Dbl.fin (x / y) := by
  rw [Dbl.fin_div_fin, if_neg h]

@[simp] theorem Dbl.fin_div_zero (x : ℚ) : Dbl.fin x / Dbl.fin 0 = Dbl.nonfin := by
  rw [Dbl.fin_div_fin, if_pos rfl]

@[simp] theorem Dbl.nonfin_add (x : Dbl) : Dbl.nonfin + x = Dbl.nonfin := rfl

@[simp] theorem Dbl.add_nonfin (x : Dbl) : x + Dbl.nonfin = Dbl.nonfin := by
  cases x <;> rfl

@[simp] theorem Dbl.nonfin_div (x : Dbl) : Dbl.nonfin / x = Dbl.nonfin := rfl

@[simp] theorem Dbl.div_nonfin (x : Dbl) : x / Dbl.nonfin = Dbl.nonfin := by
  cases x <;> rfl

@[simp] theorem Dbl.nonfin_sub (x : Dbl) : Dbl.nonfin - x = Dbl.nonfin := rfl

@[simp] theorem Dbl.fin_le_fin (x y : ℚ) : Dbl.fin x ≤ Dbl.fin y ↔ x ≤ y := Iff.rfl

theorem Dbl.zero_eq : (0 : Dbl) = Dbl.fin 0 := rfl

theorem Dbl.trunc_intCast (z : Int) : Dbl.trunc (z : ℚ) = z := by
  unfold Dbl.trunc
  split <;> simp

theorem Dbl.floor_ofSize (n : Nat) : Dbl.floor (Dbl.ofSize n) = Dbl.fin n := by
  simp [Dbl.floor, Dbl.ofSize]

theorem Dbl.toSize_natCast (n : Nat) (h : (n : Int) < SIZE_MOD) :
    Dbl.toSize (Dbl.fin n) = some n := by
  have h1 : Dbl.trunc ((n : ℚ)) = (n : Int) := by
    have := Dbl.trunc_intCast (n : Int)
    simpa using this
  simp [Dbl.toSize, h1, h]

theorem Dbl.toInt_intCast (z : Int) :
    Dbl.toInt (Dbl.fin z) = if INT_MIN ≤ z ∧ z ≤ INT_MAX then some z else none := by
  simp [Dbl.toInt, Dbl.trunc_intCast]

/-! ## The step counts -/

/-- Iterations other than the last: the worker gets `numSteps / 8` steps and `stepsDone`
grows by as much, provided the new value fits an `int`. -/
theorem workerNumSteps_inner (numSteps : Nat) (stepsDone : Int) (i : Nat)
    (hi : i ≠ NUM_THREADS - 1) (hn : (numSteps : Int) < SIZE_MOD) :
    workerNumSteps numSteps stepsDone i =
      if INT_MIN ≤ stepsDone + (numSteps / NUM_THREADS : Nat) ∧
          stepsDone + (numSteps / NUM_THREADS : Nat) ≤ INT_MAX
      then some (numSteps / NUM_THREADS, stepsDone + (numSteps / NUM_THREADS : Nat))
      else none := by
  have hq : ((numSteps / NUM_THREADS : Nat) : Int) < SIZE_MOD :=
    lt_of_le_of_lt (Int.ofNat_le.mpr (Nat.div_le_self _ _)) hn
  have hsum : Dbl.ofInt stepsDone + Dbl.fin ((numSteps / NUM_THREADS : Nat) : ℚ)
      = Dbl.fin ((stepsDone + (numSteps / NUM_THREADS : Nat) : Int) : ℚ) := by
    simp only [Dbl.ofInt, Dbl.fin_add_fin, Int.cast_add, Int.cast_natCast]
  unfold workerNumSteps
  rw [if_neg hi, Dbl.floor_ofSize, Dbl.toSize_natCast _ hq, hsum, Dbl.toInt_intCast]
  split <;> rfl

/-- Last iteration: the worker gets `numSteps - stepsDone`, computed in `size_t`. -/
theorem workerNumSteps_last (numSteps : Nat) (stepsDone : Int) :
    workerNumSteps numSteps stepsDone (NUM_THREADS - 1) =
      some ((((numSteps : Int) - stepsDone) % SIZE_MOD).toNat, stepsDone) := by
  simp [workerNumSteps]

theorem loopBody_inner (rangeStart rangeEnd : Dbl) (numSteps : Nat) (func : Dbl → Dbl)
    (stepsDone : Int) (ws : List Worker) (i : Nat)
    (hi : i ≠ NUM_THREADS - 1) (hn : (numSteps : Int) < SIZE_MOD) :
    loopBody rangeStart rangeEnd numSteps func (stepsDone, ws) i =
      if INT_MIN ≤ stepsDone + (numSteps / NUM_THREADS : Nat) ∧
          stepsDone + (numSteps / NUM_THREADS : Nat) ≤ INT_MAX
      then some (stepsDone + (numSteps / NUM_THREADS : Nat),
        ws ++ [workerAt rangeStart rangeEnd func i (numSteps / NUM_THREADS)])
      else none := by
  unfold loopBody
  rw [workerNumSteps_inner numSteps stepsDone i hi hn]
  split <;> rfl

theorem loopBody_last (rangeStart rangeEnd : Dbl) (numSteps : Nat) (func : Dbl → Dbl)
    (stepsDone : Int) (ws : List Worker) :
    loopBody rangeStart rangeEnd numSteps func (stepsDone, ws) (NUM_THREADS - 1) =
      some (stepsDone, ws ++ [workerAt rangeStart rangeEnd func (NUM_THREADS - 1)
        (((numSteps : Int) - stepsDone) % SIZE_MOD).toNat]) := by
  unfold loopBody
  rw [workerNumSteps_last]
  rfl

theorem range_NUM_THREADS : List.range NUM_THREADS = [0, 1, 2, 3, 4, 5, 6, 7] := by decide

/-- As long as `7 * (numSteps / 8)` fits an `int`, the loop builds eight workers: the first
seven with `numSteps / 8` steps, the last with the rest. -/
theorem buildWorkers_of_fits (rangeStart rangeEnd : Dbl) (numSteps : Nat) (func : Dbl → Dbl)
    (h : 7 * ((numSteps / 8 : Nat) : Int) ≤ INT_MAX) :
    buildWorkers rangeStart rangeEnd numSteps func = some
      [workerAt rangeStart rangeEnd func 0 (numSteps / 8),
       workerAt rangeStart rangeEnd func 1 (numSteps / 8),
       workerAt rangeStart rangeEnd func 2 (numSteps / 8),
       workerAt rangeStart rangeEnd func 3 (numSteps / 8),
       workerAt rangeStart rangeEnd func 4 (numSteps / 8),
       workerAt rangeStart rangeEnd func 5 (numSteps / 8),
       workerAt rangeStart rangeEnd func 6 (numSteps / 8),
       workerAt rangeStart rangeEnd func 7 (numSteps - 7 * (numSteps / 8))] := by
  have hI : INT_MAX = 2147483647 := rfl
  have hm : INT_MIN = -2147483648 := rfl
  have hS : SIZE_MOD = 18446744073709551616 := rfl
  have hN : NUM_THREADS = 8 := rfl
  have hn : (numSteps : Int) < SIZE_MOD := by
    rw [hS]; rw [hI] at h; omega
  have hlast : (((numSteps : Int) - (0 + ((numSteps / 8 : Nat) : Int) + (numSteps / 8 : Nat)
      + (numSteps / 8 : Nat) + (numSteps / 8 : Nat) + (numSteps / 8 : Nat)
      + (numSteps / 8 : Nat) + (numSteps / 8 : Nat))) % SIZE_MOD).toNat
      = numSteps - 7 * (numSteps / 8) := by
    rw [hS]; rw [hI] at h; omega
  have c (sd : Int) (h1 : 0 ≤ sd) (h2 : sd + ((numSteps / 8 : Nat) : Int) ≤ INT_MAX) :
      (INT_MIN ≤ sd + ((numSteps / NUM_THREADS : Nat) : Int) ∧
        sd + ((numSteps / NUM_THREADS : Nat) : Int) ≤ INT_MAX) := by
    rw [hN, hm]; rw [hI] at h2 ⊢; omega
  unfold buildWorkers
  rw [range_NUM_THREADS]
  simp only [List.foldlM_cons, List.foldlM_nil]
  rw [loopBody_inner _ _ _ _ _ _ _ (by decide) hn, if_pos (c _ (by omega) (by rw [hI] at h ⊢; omega))]
  simp only [Option.some_bind, Option.bind_eq_bind]
  rw [loopBody_inner _ _ _ _ _ _ _ (by decide) hn, if_pos (c _ (by rw [hN]; omega) (by rw [hN]; rw [hI] at h ⊢; omega))]
  simp only [Option.some_bind, Option.bind_eq_bind]
  rw [loopBody_inner _ _ _ _ _ _ _ (by decide) hn, if_pos (c _ (by rw [hN]; omega) (by rw [hN]; rw [hI] at h ⊢; omega))]
  simp only [Option.some_bind, Option.bind_eq_bind]
  rw [loopBody_inner _ _ _ _ _ _ _ (by decide) hn, if_pos (c _ (by rw [hN]; omega) (by rw [hN]; rw [hI] at h ⊢; omega))]
  simp only [Option.some_bind, Option.bind_eq_bind]
  rw [loopBody_inner _ _ _ _ _ _ _ (by decide) hn, if_pos (c _ (by rw [hN]; omega) (by rw [hN]; rw [hI] at h ⊢; omega))]
  simp only [Option.some_bind, Option.bind_eq_bind]
  rw [loopBody_inner _ _ _ _ _ _ _ (by decide) hn, if_pos (c _ (by rw [hN]; omega) (by rw [hN]; rw [hI] at h ⊢; omega))]
  simp only [Option.some_bind, Option.bind_eq_bind]
  rw [loopBody_inner _ _ _ _ _ _ _ (by decide) hn, if_pos (c _ (by rw [hN]; omega) (by rw [hN]; rw [hI] at h ⊢; omega))]
  simp only [Option.some_bind, Option.bind_eq_bind]
  have h7 : (7 : Nat) = NUM_THREADS - 1 := rfl
  rw [h7, loopBody_last]
  simp only [Option.some_bind, Option.bind_eq_bind, Option.pure_def, Option.map_some', List.nil_append, List.append_assoc, List.cons_append, hN]
  rw [hlast]

/-- When `7 * (numSteps / 8)` does not fit an `int`, the conversion that updates `stepsDone`
is undefined in one of the first seven iterations. -/
theorem buildWorkers_of_overflow (rangeStart rangeEnd : Dbl) (numSteps : Nat)
    (func : Dbl → Dbl) (hn : (numSteps : Int) < SIZE_MOD)
    (hbig : INT_MAX < 7 * ((numSteps / 8 : Nat) : Int)) :
    buildWorkers rangeStart rangeEnd numSteps func = none := by
  have hI : INT_MAX = 2147483647 := rfl
  have hm : INT_MIN = -2147483648 := rfl
  have hN : NUM_THREADS = 8 := rfl
  rw [hI] at hbig
  unfold buildWorkers
  rw [range_NUM_THREADS]
  simp only [List.foldlM_cons, List.foldlM_nil]
  rw [loopBody_inner _ _ _ _ _ _ _ (by decide) hn]
  split_ifs with h0
  swap
  · rfl
  simp only [Option.some_bind, Option.bind_eq_bind]
  rw [loopBody_inner _ _ _ _ _ _ _ (by decide) hn]
  split_ifs with h1
  swap
  · rfl
  simp only [Option.some_bind, Option.bind_eq_bind]
  rw [loopBody_inner _ _ _ _ _ _ _ (by decide) hn]
  split_ifs with h2
  swap
  · rfl
  simp only [Option.some_bind, Option.bind_eq_bind]
  rw [loopBody_inner _ _ _ _ _ _ _ (by decide) hn]
  split_ifs with h3
  swap
  · rfl
  simp only [Option.some_bind, Option.bind_eq_bind]
  rw [loopBody_inner _ _ _ _ _ _ _ (by decide) hn]
  split_ifs with h4
  swap
  · rfl
  simp only [Option.some_bind, Option.bind_eq_bind]
  rw [loopBody_inner _ _ _ _ _ _ _ (by decide) hn]
  split_ifs with h5
  swap
  · rfl
  simp only [Option.some_bind, Option.bind_eq_bind]
  rw [loopBody_inner _ _ _ _ _ _ _ (by decide) hn]
  split_ifs with h6
  swap
  · rfl
  exfalso
  rw [hN, hI] at h6
  omega

/-- While `7 * (numSteps / 8)` fits an `int`, the first seven workers get `numSteps / 8`
steps each, the last one gets the rest, and the eight counts add up to `numSteps`. -/
theorem stepCounts_of_fits (rangeStart rangeEnd : Dbl) (numSteps : Nat) (func : Dbl → Dbl)
    (h : 7 * ((numSteps / 8 : Nat) : Int) ≤ INT_MAX) :
    (buildWorkers rangeStart rangeEnd numSteps func).map stepCounts
        = some [numSteps / 8, numSteps / 8, numSteps / 8, numSteps / 8, numSteps / 8,
                numSteps / 8, numSteps / 8, numSteps - 7 * (numSteps / 8)]
      ∧ [numSteps / 8, numSteps / 8, numSteps / 8, numSteps / 8, numSteps / 8,
          numSteps / 8, numSteps / 8, numSteps - 7 * (numSteps / 8)].sum = numSteps := by
  constructor
  · rw [buildWorkers_of_fits rangeStart rangeEnd numSteps func h]
    rfl
  · simp only [List.sum_cons, List.sum_nil]
    omega

/-- C1, evaluated at the input line `0 1 2454267032 0`, which `getValidInput` accepts:
`numSteps / 8 = 306783379`, and the seventh update of the `int` variable `stepsDone` would
have to store `7 * 306783379 = 2147483653`, which is more than `INT_MAX`. The conversion has
no defined result, so the loop does not produce eight step counts that add up to `numSteps`;
this is so for every range and function. -/
theorem stepsDone_overflows_int :
    getValidInput 4 (Dbl.fin 0) (Dbl.fin 1) 2454267032 0 = true
      ∧ (INT_MAX < 7 * ((2454267032 / 8 : Nat) : Int))
      ∧ ∀ (rangeStart rangeEnd : Dbl) (func : Dbl → Dbl),
          buildWorkers rangeStart rangeEnd 2454267032 func = none :=
  ⟨by decide, by decide, fun rangeStart rangeEnd func =>
    buildWorkers_of_overflow rangeStart rangeEnd 2454267032 func (by decide) (by decide)⟩

/-- C4 as stated fails: for `numSteps = 3` the step counts do not consist of five zeros
and three ones. -/
theorem three_steps_not_five_zeros_three_ones :
    ¬ ((buildWorkers (Dbl.fin 0) (Dbl.fin 1) 3 id).map
        (fun ws => ((stepCounts ws).count 0, (stepCounts ws).count 1)) = some (5, 3)) := by
  rw [buildWorkers_of_fits _ _ _ _ (by decide)]
  decide

/-- C4 as amended: for `numSteps = 3` the first seven workers get 0 steps and the last
worker gets all 3 steps, so 7 partitions have 0 steps and exactly 3 steps are used. -/
theorem three_steps_all_to_last_worker (rangeStart rangeEnd : Dbl) (func : Dbl → Dbl) :
    (buildWorkers rangeStart rangeEnd 3 func).map stepCounts = some [0, 0, 0, 0, 0, 0, 0, 3]
      ∧ List.count 0 [0, 0, 0, 0, 0, 0, 0, 3] = 7
      ∧ [0, 0, 0, 0, 0, 0, 0, 3].sum = 3 := by
  refine ⟨?_, by decide, by decide⟩
  rw [buildWorkers_of_fits _ _ _ _ (by decide)]
  rfl

/-! ## The sub-ranges -/

/-- Each iteration appends one worker whose range is the one computed for its index. -/
theorem loopBody_ranges (rangeStart rangeEnd : Dbl) (numSteps : Nat) (func : Dbl → Dbl)
    (st st1 : Int × List Worker) (i : Nat)
    (h : loopBody rangeStart rangeEnd numSteps func st i = some st1) :
    st1.2.map (fun w => (w.rangeStart, w.rangeEnd))
      = st.2.map (fun w => (w.rangeStart, w.rangeEnd))
        ++ [(workerRangeStart rangeStart rangeEnd i, workerRangeEnd rangeStart rangeEnd i)] := by
  unfold loopBody at h
  cases hr : workerNumSteps numSteps st.1 i with
  | none => rw [hr] at h; cases h
  | some r =>
    rw [hr] at h
    cases h
    simp [workerAt]

theorem foldlM_loopBody_ranges (rangeStart rangeEnd : Dbl) (numSteps : Nat)
    (func : Dbl → Dbl) :
    ∀ (l : List Nat) (st st1 : Int × List Worker),
      l.foldlM (loopBody rangeStart rangeEnd numSteps func) st = some st1 →
      st1.2.map (fun w => (w.rangeStart, w.rangeEnd))
        = st.2.map (fun w => (w.rangeStart, w.rangeEnd))
          ++ l.map (fun i => (workerRangeStart rangeStart rangeEnd i,
                              workerRangeEnd rangeStart rangeEnd i)) := by
  intro l
  induction l with
  | nil =>
    intro st st1 h
    cases h
    simp
  | cons i l ih =>
    intro st st1 h
    rw [List.foldlM_cons] at h
    cases hb : loopBody rangeStart rangeEnd numSteps func st i with
    | none => rw [hb] at h; cases h
    | some st2 =>
      rw [hb] at h
      have h2 := ih st2 st1 h
      rw [h2, loopBody_ranges _ _ _ _ _ _ _ hb]
      simp

/-- Whatever the step count, the workers that the loop builds carry the ranges
`workerRangeStart i`, `workerRangeEnd i` for `i = 0, ..., 7`, in this order. -/
theorem buildWorkers_ranges (rangeStart rangeEnd : Dbl) (numSteps : Nat) (func : Dbl → Dbl)
    (ws : List Worker) (h : buildWorkers rangeStart rangeEnd numSteps func = some ws) :
    ws.map (fun w => (w.rangeStart, w.rangeEnd))
      = (List.range NUM_THREADS).map (fun i => (workerRangeStart rangeStart rangeEnd i,
                              workerRangeEnd rangeStart rangeEnd i)) := by
  unfold buildWorkers at h
  cases hf : (List.range NUM_THREADS).foldlM (loopBody rangeStart rangeEnd numSteps func)
      (0, []) with
  | none => rw [hf] at h; cases h
  | some st1 =>
    rw [hf] at h
    cases h
    have := foldlM_loopBody_ranges rangeStart rangeEnd numSteps func _ _ _ hf
    simpa using this

/-! ## A worker with no step -/

/-- C5 as stated fails: for the worker `[0, 1]` with `numSteps = 0`, `integrateTrap`
computes `dx` as `1 / 0`, a division by zero, whose result is not finite. -/
theorem zero_steps_divides_by_zero :
    integrateTrap.dx ⟨Dbl.fin 0, Dbl.fin 1, 0, id⟩ = Dbl.fin 1 / Dbl.fin 0
      ∧ integrateTrap.dx ⟨Dbl.fin 0, Dbl.fin 1, 0, id⟩ = Dbl.nonfin := by
  constructor <;> decide!

/-- C5 as amended: a worker with `numSteps = 0` has partial area exactly 0 and leaves
`totalArea` as it was. The division `rangeSize / numSteps` is evaluated all the same, with
the divisor 0, and `dx` is not finite; the loop body, the only place that reads `dx`, is not
run. -/
theorem zero_steps_area_zero (worker : Worker) (totalArea : Dbl)
    (h : worker.numSteps = 0) :
    integrateTrap.area worker = Dbl.fin 0
      ∧ integrateTrap worker totalArea = totalArea
      ∧ integrateTrap.dx worker = (worker.rangeEnd - worker.rangeStart) / Dbl.fin 0
      ∧ integrateTrap.dx worker = Dbl.nonfin := by
  have harea : integrateTrap.area worker = Dbl.fin 0 := by
    unfold integrateTrap.area
    rw [h]
    rfl
  have hdx : integrateTrap.dx worker = (worker.rangeEnd - worker.rangeStart) / Dbl.fin 0 := by
    unfold integrateTrap.dx
    rw [h]
    simp [Dbl.ofSize]
  refine ⟨harea, ?_, hdx, ?_⟩
  · unfold integrateTrap
    rw [harea]
    cases totalArea <;> simp
  · rw [hdx]
    cases (worker.rangeEnd - worker.rangeStart) <;> simp

/-- C5 (amended) at the worker `[2, 5]` with no step and `f(x) = x * x`, for `totalArea = 7`. -/
theorem zero_steps_area_zero_witness :
    (⟨Dbl.fin 2, Dbl.fin 5, 0, fun x => x * x⟩ : Worker).numSteps = 0
      ∧ integrateTrap ⟨Dbl.fin 2, Dbl.fin 5, 0, fun x => x * x⟩ (Dbl.fin 7) = Dbl.fin 7 :=
  ⟨rfl, (zero_steps_area_zero ⟨Dbl.fin 2, Dbl.fin 5, 0, fun x => x * x⟩ (Dbl.fin 7) rfl).2.1⟩

/-! ## The accumulator -/

theorem foldl_integrateTrap (l : List Worker) (init : Dbl) :
    l.foldl (fun totalArea worker => integrateTrap worker totalArea) init
      = init + (l.map integrateTrap.area).sum := by
  induction l generalizing init with
  | nil => simp
  | cons w l ih =>
    simp only [List.foldl_cons, List.map_cons, List.sum_cons]
    rw [ih, integrateTrap, add_assoc]

/-- After the threads have committed in program order the total is the sum of the partial
areas. -/
theorem joinAll_eq_sumAreas (ws : List Worker) : joinAll ws = sumAreas ws := by
  unfold joinAll sumAreas
  rw [foldl_integrateTrap]
  exact zero_add _

/-- Two locked updates commute. -/
theorem integrateTrap_comm (w1 w2 : Worker) (totalArea : Dbl) :
    integrateTrap w2 (integrateTrap w1 totalArea) = integrateTrap w1 (integrateTrap w2 totalArea) := by
  unfold integrateTrap
  rw [add_assoc, add_assoc, add_comm (integrateTrap.area w1)]

/-- The total does not depend on the order in which the threads commit. -/
theorem joinAll_perm (l1 l2 : List Worker) (p : l1.Perm l2) : joinAll l1 = joinAll l2 := by
  unfold joinAll
  exact p.foldl_eq' (fun x _ y _ z => integrateTrap_comm x y z) _

theorem inOrder_range (ws : List Worker) : inOrder ws (List.range ws.length) = ws := by
  unfold inOrder
  induction ws with
  | nil => rfl
  | cons w ws ih =>
    rw [List.length_cons, List.range_succ_eq_map, List.filterMap_cons]
    simp only [List.getElem?_cons_zero, List.filterMap_map]
    congr 1
    have hf : ((fun i => (w :: ws)[i]?) ∘ Nat.succ) = (fun i => ws[i]?) := by
      funext i
      simp
    rw [hf]
    exact ih

theorem inOrder_perm (ws : List Worker) (order : List Nat)
    (p : order.Perm (List.range ws.length)) : (inOrder ws order).Perm ws := by
  have h := p.filterMap (fun i => ws[i]?)
  rw [show List.filterMap (fun i => ws[i]?) (List.range ws.length) = ws from inOrder_range ws] at h
  exact h

theorem buildWorkers_length (rangeStart rangeEnd : Dbl) (numSteps : Nat) (func : Dbl → Dbl)
    (ws : List Worker) (h : buildWorkers rangeStart rangeEnd numSteps func = some ws) :
    ws.length = NUM_THREADS := by
  have := congrArg List.length (buildWorkers_ranges _ _ _ _ _ h)
  simpa using this

/-- Whatever the commit order, the child prints the sum of the partial areas of the workers
it has built. -/
theorem child_eq_sumAreas (rangeStart rangeEnd : Dbl) (numSteps : Nat) (func : Dbl → Dbl)
    (order : List Nat) (p : order.Perm (List.range NUM_THREADS)) :
    integrateWithChildProcess.child rangeStart rangeEnd numSteps func order
      = (buildWorkers rangeStart rangeEnd numSteps func).map sumAreas := by
  unfold integrateWithChildProcess.child
  cases hb : buildWorkers rangeStart rangeEnd numSteps func with
  | none => rfl
  | some ws =>
    have hl := buildWorkers_length _ _ _ _ _ hb
    simp only [Option.map_some']
    rw [joinAll_perm _ _ (inOrder_perm ws order (by rw [hl]; exact p)), joinAll_eq_sumAreas]

/-! ## The trapezoid sums -/

/-- C8: for the job `0 1 1000` with `f(x) = x`, whatever the order in which the eight
threads commit, the total printed by the child is within `1e-6` of `0.5` (it is `1/2`). -/
theorem identity_total_near_half (order : List Nat)
    (p : order.Perm (List.range NUM_THREADS)) :
    ∃ total : ℚ,
      integrateWithChildProcess.child (Dbl.fin 0) (Dbl.fin 1) 1000 (fun x => x) order
          = some (Dbl.fin total)
        ∧ |total - 1 / 2| ≤ 1 / 1000000 := by
  refine ⟨1 / 2, ?_, by norm_num⟩
  rw [child_eq_sumAreas _ _ _ _ _ p]
  decide!

/-- C8 for the commit order `7, 6, ..., 0`. -/
theorem identity_total_near_half_witness :
    ([7, 6, 5, 4, 3, 2, 1, 0] : List Nat).Perm (List.range NUM_THREADS)
      ∧ ∃ total : ℚ,
        integrateWithChildProcess.child (Dbl.fin 0) (Dbl.fin 1) 1000 (fun x => x)
            [7, 6, 5, 4, 3, 2, 1, 0] = some (Dbl.fin total)
          ∧ |total - 1 / 2| ≤ 1 / 1000000 :=
  ⟨by decide, identity_total_near_half [7, 6, 5, 4, 3, 2, 1, 0] (by decide)⟩

/-! ## The parent process -/

theorem Inv_init : Inv main.init := by
  unfold Inv main.init
  simp [Pc.incrementing]

theorem Inv_step (s s1 : Sched) (e : Event) (h : Inv s) (hs : step s e = some s1) :
    Inv s1 := by
  obtain ⟨pc, n, r, z, p⟩ := s
  cases e with
  | parent valid forkOk =>
    cases pc <;> cases p <;>
      simp only [step, main.step, integrateWithChildProcess.parent, MAX_CHILDREN] at hs <;>
      (try split_ifs at hs) <;>
      cases hs <;>
      simp only [Inv, Pc.incrementing, Bool.false_eq_true, if_true, if_false,
        reduceCtorEq, false_implies, forall_const, implies_true, and_true, true_and,
        Pc.loaded.injEq, forall_eq, forall_eq'] at h ⊢ <;>
      omega
  | childExit =>
    cases pc <;> cases p <;>
      simp only [step, Pc.exited, Bool.false_eq_true, if_true, if_false] at hs <;>
      (try split_ifs at hs with hc) <;>
      cases hs <;>
      simp only [Inv, Pc.incrementing, Bool.false_eq_true, if_true, if_false,
        reduceCtorEq, false_implies, forall_const, implies_true, and_true, true_and,
        Pc.loaded.injEq, forall_eq, forall_eq'] at h ⊢ <;>
      omega
  | sigchld =>
    cases pc <;> cases p <;>
      simp only [step, Pc.exited, childProcessEnded, Bool.false_eq_true, if_true,
        if_false] at hs <;>
      cases hs <;>
      simp only [Inv, Pc.incrementing, Bool.false_eq_true, if_true, if_false,
        reduceCtorEq, false_implies, forall_const, implies_true, and_true, true_and,
        Pc.loaded.injEq, forall_eq, forall_eq'] at h ⊢ <;>
      omega

theorem Inv_run (es : List Event) : ∀ (s s1 : Sched), Inv s → run s es = some s1 → Inv s1 := by
  induction es with
  | nil =>
    intro s s1 h hr
    cases hr
    exact h
  | cons e es ih =>
    intro s s1 h hr
    simp only [run] at hr
    cases hs : step s e with
    | none => rw [hs] at hr; cases hr
    | some s2 =>
      rw [hs] at hr
      exact ih s2 s1 (Inv_step s s2 e h hs) hr

/-- C6 as stated fails: the first child can terminate, and its `SIGCHLD` be handled,
after `fork` has returned in the parent and before the parent runs `numChildren++`; the
handler then takes `numChildren` from 0 to -1. -/
theorem numChildren_negative_after_early_exit :
    run main.init [Event.parent true true, Event.childExit, Event.sigchld]
      = some ⟨Pc.forked, -1, 0, 1, false⟩ := by
  decide

/-- C6 as amended: in every state the parent can reach, `numChildren` is at least -1 and
at most `MAX_CHILDREN`, it is at least 0 whenever the parent is not between the return of
`fork` and the end of `numChildren++` (in particular at every test
`numChildren < MAX_CHILDREN`), and at most `MAX_CHILDREN` children are running. -/
theorem numChildren_bounds (es : List Event) (s : Sched)
    (h : run main.init es = some s) :
    -1 ≤ s.numChildren ∧ s.numChildren ≤ MAX_CHILDREN
      ∧ (s.pc.incrementing = false → 0 ≤ s.numChildren)
      ∧ (s.running : Int) ≤ MAX_CHILDREN := by
  have hI := Inv_run es main.init s Inv_init h
  obtain ⟨pc, n, r, z, p⟩ := s
  cases pc <;> cases p <;>
    simp only [Inv, Pc.incrementing, Bool.false_eq_true, if_true, if_false,
      reduceCtorEq, false_implies, forall_const, implies_true, and_true, true_and,
      Pc.loaded.injEq, forall_eq, forall_eq', MAX_CHILDREN] at hI ⊢ <;>
    omega

/-- C6 (amended) at a state reached after one job runs and a second child exits early. -/
theorem numChildren_bounds_witness :
    run main.init [Event.parent true true, Event.parent true true, Event.parent true true,
        Event.parent true true, Event.childExit, Event.sigchld]
      = some ⟨Pc.forked, 0, 1, 1, false⟩
    ∧ (-1 ≤ (0 : Int) ∧ (0 : Int) ≤ MAX_CHILDREN
      ∧ (Pc.forked.incrementing = false → 0 ≤ (0 : Int))
      ∧ ((1 : Nat) : Int) ≤ MAX_CHILDREN) :=
  ⟨by decide,
    numChildren_bounds [Event.parent true true, Event.parent true true, Event.parent true true,
        Event.parent true true, Event.childExit, Event.sigchld] ⟨Pc.forked, 0, 1, 1, false⟩
      (by decide)⟩

/-- C9 as stated fails: after one job has been started, a failing `fork` makes the parent
exit while that job's child is still running; the parent has collected no child. -/
theorem fork_failure_exits_with_child_running :
    run main.init [Event.parent true true, Event.parent true true, Event.parent true true,
        Event.parent true false]
      = some ⟨Pc.exitForkError, 1, 1, 0, false⟩ := by
  decide

/-- C9 as amended: when `fork` fails, the parent leaves through `exit(0)` in the branch
`childPid < 0` at once. It does not go through the `wait` loop: the children that are
running and those not yet collected are left as they are, and the parent takes no further
step. -/
theorem fork_failure_exits_at_once (s : Sched) (hc : s.pc = Pc.check)
    (hcap : s.numChildren < MAX_CHILDREN) :
    main.step s true false
        = some ⟨Pc.exitForkError, s.numChildren, s.running, s.zombies, s.sigPending⟩
      ∧ ∀ e, step ⟨Pc.exitForkError, s.numChildren, s.running, s.zombies, s.sigPending⟩ e
          = none := by
  obtain ⟨pc, n, r, z, p⟩ := s
  simp only at hc hcap
  subst hc
  constructor
  · simp [main.step, hcap, integrateWithChildProcess.parent]
  · intro e
    cases e <;> simp [step, main.step, Pc.exited]

/-- C9 (amended) at the state with one job in flight. -/
theorem fork_failure_exits_at_once_witness :
    (⟨Pc.check, 1, 1, 0, false⟩ : Sched).pc = Pc.check
      ∧ (⟨Pc.check, 1, 1, 0, false⟩ : Sched).numChildren < MAX_CHILDREN
      ∧ main.step ⟨Pc.check, 1, 1, 0, false⟩ true false
        = some ⟨Pc.exitForkError, 1, 1, 0, false⟩ :=
  ⟨rfl, by decide, (fork_failure_exits_at_once ⟨Pc.check, 1, 1, 0, false⟩ rfl (by decide)).1⟩

theorem Draining_step (running total : Nat) (s s1 : Sched) (e : Event)
    (h : Draining running total s) (hs : step s e = some s1) : Draining running total s1 := by
  obtain ⟨pc, n, r, z, p⟩ := s
  obtain ⟨h1, h2, h3⟩ := h
  simp only at h1 h2 h3
  rcases h1 with h1 | ⟨h1, -, -⟩ <;> subst h1
  · cases e with
    | parent valid forkOk =>
      simp only [step, main.step] at hs
      split_ifs at hs with hz hr <;> cases hs
      · exact ⟨Or.inl rfl, h2, by simp only; omega⟩
      · refine ⟨Or.inr ⟨rfl, hr, ?_⟩, h2, h3⟩
        simp only; omega
    | childExit =>
      simp only [step, Pc.exited, Bool.false_eq_true, if_false] at hs
      split_ifs at hs with hr
      cases hs
      exact ⟨Or.inl rfl, by simp only; omega, by simp only; omega⟩
    | sigchld =>
      simp only [step, Pc.exited, Bool.false_eq_true, if_false, childProcessEnded] at hs
      split_ifs at hs with hp
      cases hs
      exact ⟨Or.inl rfl, h2, h3⟩
  · cases e <;> simp [step, main.step, Pc.exited] at hs

theorem Draining_run (running total : Nat) (es : List Event) :
    ∀ (s s1 : Sched), Draining running total s → run s es = some s1 →
      Draining running total s1 := by
  induction es with
  | nil =>
    intro s s1 h hr
    cases hr
    exact h
  | cons e es ih =>
    intro s s1 h hr
    simp only [run] at hr
    cases hs : step s e with
    | none => rw [hs] at hr; cases hr
    | some s2 =>
      rw [hs] at hr
      exact ih s2 s1 (Draining_step running total s s2 e h hs) hr

/-- The final `exit(0)` of `main` is entered only from the `wait` loop, in a state with no
running child and no child left to collect. -/
theorem exitMain_only_from_empty (s s1 : Sched) (e : Event) (hs : step s e = some s1)
    (h1 : s1.pc = Pc.exitMain) : s.pc = Pc.drain ∧ s.running = 0 ∧ s.zombies = 0 := by
  obtain ⟨pc, n, r, z, p⟩ := s
  cases e with
  | parent valid forkOk =>
    cases pc <;>
      simp only [step, main.step, integrateWithChildProcess.parent] at hs <;>
      (try split_ifs at hs) <;> cases hs <;> simp only [reduceCtorEq] at h1
    rename_i hz hr
    simp only at hz hr
    exact ⟨rfl, hr, show z = 0 by omega⟩
  | childExit =>
    cases pc <;>
      simp only [step, Pc.exited, Bool.false_eq_true, if_true, if_false] at hs <;>
      (try split_ifs at hs) <;> cases hs <;> simp only [reduceCtorEq] at h1
  | sigchld =>
    cases pc <;> cases p <;>
      simp only [step, Pc.exited, childProcessEnded, Bool.false_eq_true, if_true,
        if_false] at hs <;>
      cases hs <;> simp only [reduceCtorEq] at h1

/-- C10: once `getValidInput` has reported invalid or absent input at the head of the
loop, the parent stays in the `wait` loop or has left through the final `exit(0)`; no child
is added from then on; when the parent has left, no child is running and none is left to
collect; and in general the final `exit(0)` is entered only from a state of the `wait`
loop with no running child. -/
theorem drains_before_final_exit (s : Sched) (forkOk : Bool) (es : List Event) (s1 : Sched)
    (hc : s.pc = Pc.check) (hcap : s.numChildren < MAX_CHILDREN)
    (hrun : run s (Event.parent false forkOk :: es) = some s1) :
    (s1.pc = Pc.drain ∨ s1.pc = Pc.exitMain)
      ∧ s1.running ≤ s.running
      ∧ s1.running + s1.zombies ≤ s.running + s.zombies
      ∧ (s1.pc = Pc.exitMain → s1.running = 0 ∧ s1.zombies = 0)
      ∧ (∀ (t t1 : Sched) (e : Event), step t e = some t1 → t1.pc = Pc.exitMain →
          t.pc = Pc.drain ∧ t.running = 0 ∧ t.zombies = 0) := by
  obtain ⟨pc, n, r, z, p⟩ := s
  simp only at hc hcap
  subst hc
  simp only [run, step, main.step, hcap, if_true, Bool.false_eq_true, if_false,
    Option.some_bind] at hrun
  have hD : Draining r (r + z) ⟨Pc.drain, n, r, z, p⟩ :=
    ⟨Or.inl rfl, le_refl _, le_refl _⟩
  obtain ⟨h1, h2, h3⟩ := Draining_run r (r + z) es _ s1 hD hrun
  refine ⟨?_, h2, h3, ?_, exitMain_only_from_empty⟩
  · rcases h1 with h1 | ⟨h1, -, -⟩
    · exact Or.inl h1
    · exact Or.inr h1
  · intro hx
    rcases h1 with h1 | ⟨-, h4, h5⟩
    · rw [h1] at hx; cases hx
    · exact ⟨h4, h5⟩

/-- C10 from the state with one job in flight: the parent exits after that child. -/
theorem drains_before_final_exit_witness :
    (⟨Pc.check, 1, 1, 0, false⟩ : Sched).pc = Pc.check
      ∧ (⟨Pc.check, 1, 1, 0, false⟩ : Sched).numChildren < MAX_CHILDREN
      ∧ run ⟨Pc.check, 1, 1, 0, false⟩
          [Event.parent false true, Event.childExit, Event.sigchld, Event.parent true true,
           Event.parent true true]
        = some ⟨Pc.exitMain, 0, 0, 0, false⟩
      ∧ ((⟨Pc.exitMain, 0, 0, 0, false⟩ : Sched).pc = Pc.exitMain →
          (⟨Pc.exitMain, 0, 0, 0, false⟩ : Sched).running = 0
            ∧ (⟨Pc.exitMain, 0, 0, 0, false⟩ : Sched).zombies = 0) :=
  ⟨rfl, by decide, by decide,
    (drains_before_final_exit ⟨Pc.check, 1, 1, 0, false⟩ true
      [Event.childExit, Event.sigchld, Event.parent true true, Event.parent true true]
      ⟨Pc.exitMain, 0, 0, 0, false⟩ rfl (by decide) (by decide)).2.2.2.1⟩

/-! ## The program in binary64 arithmetic -/

/-! ## Rounding to binary64 -/

theorem roundHalfEven_intCast (n : Int) : roundHalfEven (n : ℚ) = n := by
  unfold roundHalfEven
  simp

theorem floor_le_roundHalfEven (x : ℚ) : ⌊x⌋ ≤ roundHalfEven x := by
  unfold roundHalfEven
  split_ifs <;> omega

theorem roundHalfEven_le_floor_add_one (x : ℚ) : roundHalfEven x ≤ ⌊x⌋ + 1 := by
  unfold roundHalfEven
  split_ifs <;> omega

theorem roundHalfEven_mono {x y : ℚ} (h : x ≤ y) : roundHalfEven x ≤ roundHalfEven y := by
  have hf : ⌊x⌋ ≤ ⌊y⌋ := Int.floor_mono h
  rcases lt_or_eq_of_le hf with hlt | heq
  · calc roundHalfEven x ≤ ⌊x⌋ + 1 := roundHalfEven_le_floor_add_one x
      _ ≤ ⌊y⌋ := hlt
      _ ≤ roundHalfEven y := floor_le_roundHalfEven y
  · unfold roundHalfEven
    rw [← heq]
    have hxy : x - ⌊x⌋ ≤ y - ⌊x⌋ := by linarith
    split_ifs <;> first | omega | (exfalso; linarith)

/-- An integer below `x` is below the rounding of `x`. -/
theorem intCast_le_roundHalfEven {n : Int} {x : ℚ} (h : (n : ℚ) ≤ x) : n ≤ roundHalfEven x := by
  have := roundHalfEven_mono h
  rwa [roundHalfEven_intCast] at this

/-- An integer above `x` is above the rounding of `x`. -/
theorem roundHalfEven_le_intCast {n : Int} {x : ℚ} (h : x ≤ (n : ℚ)) : roundHalfEven x ≤ n := by
  have := roundHalfEven_mono h
  rwa [roundHalfEven_intCast] at this

theorem quantum_eq (x : ℚ) : quantum x = 2 ^ quantumExp x := rfl

theorem quantum_pos (x : ℚ) : 0 < quantum x := by
  rw [quantum_eq]
  positivity

theorem rnd_mono_same {x y : ℚ} (h : x ≤ y) (hq : quantumExp x = quantumExp y) :
    rnd x ≤ rnd y := by
  unfold rnd
  rw [quantum_eq, quantum_eq, hq]
  have hp : (0 : ℚ) < 2 ^ quantumExp y := by positivity
  have h1 : x / 2 ^ quantumExp y ≤ y / 2 ^ quantumExp y := div_le_div_of_nonneg_right h hp.le
  have h2 : ((roundHalfEven (x / 2 ^ quantumExp y) : Int) : ℚ)
      ≤ ((roundHalfEven (y / 2 ^ quantumExp y) : Int) : ℚ) := by
    exact_mod_cast roundHalfEven_mono h1
  exact mul_le_mul_of_nonneg_right h2 hp.le

theorem bitLength.go_spec : ∀ (fuel n : Nat), n ≤ fuel → n ≠ 0 →
    0 < bitLength.go fuel n ∧ 2 ^ (bitLength.go fuel n - 1) ≤ n ∧ n < 2 ^ bitLength.go fuel n := by
  intro fuel
  induction fuel with
  | zero =>
    intro n h h0
    omega
  | succ fuel ih =>
    intro n h h0
    simp only [bitLength.go, if_neg h0]
    by_cases h2 : n / 2 = 0
    · have hg : bitLength.go fuel (n / 2) = 0 := by
        rw [h2]
        cases fuel <;> simp [bitLength.go]
      rw [hg]
      have : n = 1 := by omega
      subst this
      simp
    · obtain ⟨hpos, hlo, hhi⟩ := ih (n / 2) (by omega) h2
      refine ⟨by omega, ?_, ?_⟩
      · have e : bitLength.go fuel (n / 2) + 1 - 1 = (bitLength.go fuel (n / 2) - 1) + 1 := by
          omega
        rw [e, pow_succ]
        omega
      · rw [pow_succ]
        omega

theorem bitLength_spec {n : Nat} (h0 : n ≠ 0) :
    0 < bitLength n ∧ 2 ^ (bitLength n - 1) ≤ n ∧ n < 2 ^ bitLength n :=
  bitLength.go_spec n n (le_refl n) h0

/-- For `x` other than 0, `x` lies strictly between `2 ^ (k - 1)` and `2 ^ (k + 1)` in
magnitude, `k` being the difference of the bit lengths of its numerator and denominator. -/
theorem abs_bounds_bitLength {x : ℚ} (hx : x ≠ 0) :
    (2 : ℚ) ^ ((bitLength x.num.natAbs : Int) - bitLength x.den - 1) ≤ |x|
      ∧ |x| < (2 : ℚ) ^ ((bitLength x.num.natAbs : Int) - bitLength x.den + 1) := by
  have hn0 : x.num.natAbs ≠ 0 := by
    simpa using (Rat.num_ne_zero.mpr hx)
  obtain ⟨hnpos, hnlo, hnhi⟩ := bitLength_spec hn0
  obtain ⟨hdpos, hdlo, hdhi⟩ := bitLength_spec x.den_nz
  have habs : |x| = (x.num.natAbs : ℚ) / (x.den : ℚ) := by
    conv_lhs => rw [← Rat.num_div_den x]
    rw [abs_div, Nat.cast_natAbs, Int.cast_abs]
    congr 1
    exact abs_of_pos (by exact_mod_cast x.den_pos)
  have hd : (0 : ℚ) < x.den := by exact_mod_cast x.den_pos
  have hnlo' : (2 : ℚ) ^ (bitLength x.num.natAbs - 1) ≤ (x.num.natAbs : ℚ) := by
    exact_mod_cast hnlo
  have hnhi' : (x.num.natAbs : ℚ) < (2 : ℚ) ^ (bitLength x.num.natAbs) := by
    exact_mod_cast hnhi
  have hdlo' : (2 : ℚ) ^ (bitLength x.den - 1) ≤ (x.den : ℚ) := by
    exact_mod_cast hdlo
  have hdhi' : (x.den : ℚ) < (2 : ℚ) ^ (bitLength x.den) := by
    exact_mod_cast hdhi
  have e1 : (2 : ℚ) ^ ((bitLength x.num.natAbs : Int) - bitLength x.den - 1)
      = 2 ^ (bitLength x.num.natAbs - 1) / 2 ^ (bitLength x.den) := by
    have : ((bitLength x.num.natAbs : Int) - bitLength x.den - 1)
        = ((bitLength x.num.natAbs - 1 : Nat) : Int) - (bitLength x.den : Nat) := by omega
    rw [this, zpow_sub₀ (by norm_num : (2 : ℚ) ≠ 0), zpow_natCast, zpow_natCast]
  have e2 : (2 : ℚ) ^ ((bitLength x.num.natAbs : Int) - bitLength x.den + 1)
      = 2 ^ (bitLength x.num.natAbs) / 2 ^ (bitLength x.den - 1) := by
    have : ((bitLength x.num.natAbs : Int) - bitLength x.den + 1)
        = ((bitLength x.num.natAbs : Nat) : Int) - ((bitLength x.den - 1 : Nat) : Int) := by omega
    rw [this, zpow_sub₀ (by norm_num : (2 : ℚ) ≠ 0), zpow_natCast, zpow_natCast]
  rw [habs, e1, e2]
  constructor
  · rw [div_le_div_iff₀ (by positivity) hd]
    have := mul_le_mul hnlo' hdhi'.le hd.le (by positivity)
    linarith
  · rw [div_lt_div_iff₀ hd (by positivity)]
    have h1 : (x.num.natAbs : ℚ) * 2 ^ (bitLength x.den - 1) < 2 ^ bitLength x.num.natAbs * 2 ^ (bitLength x.den - 1) :=
      mul_lt_mul_of_pos_right hnhi' (by positivity)
    have h2 : (2 : ℚ) ^ bitLength x.num.natAbs * 2 ^ (bitLength x.den - 1) ≤ 2 ^ bitLength x.num.natAbs * x.den :=
      mul_le_mul_of_nonneg_left hdlo' (by positivity)
    linarith

theorem zpow_exponent_le_abs {x : ℚ} (hx : x ≠ 0) : (2 : ℚ) ^ exponent x ≤ |x| := by
  unfold exponent
  split_ifs with h
  · exact h
  · exact (abs_bounds_bitLength hx).1

theorem abs_lt_zpow_exponent_succ (x : ℚ) : |x| < (2 : ℚ) ^ (exponent x + 1) := by
  by_cases hx : x = 0
  · subst hx
    simp only [abs_zero]
    positivity
  · unfold exponent
    split_ifs with h
    · exact (abs_bounds_bitLength hx).2
    · rw [sub_add_cancel]
      exact not_le.mp h

theorem exponent_mono_abs {x y : ℚ} (hx : x ≠ 0) (h : |x| ≤ |y|) : exponent x ≤ exponent y := by
  by_contra hc
  push_neg at hc
  have h1 := zpow_exponent_le_abs hx
  have h2 := abs_lt_zpow_exponent_succ y
  have h3 : (2 : ℚ) ^ (exponent y + 1) ≤ 2 ^ exponent x :=
    zpow_le_zpow_right₀ (by norm_num) (by omega)
  linarith

theorem quantumExp_mono_abs {x y : ℚ} (hx : x ≠ 0) (h : |x| ≤ |y|) :
    quantumExp x ≤ quantumExp y := by
  unfold quantumExp
  have := exponent_mono_abs hx h
  exact max_le_max (by omega) (le_refl _)

/-- The quotient of `x` by its quantum is below `2 ^ 53` in magnitude. -/
theorem abs_div_quantum_lt (x : ℚ) : |x| / 2 ^ quantumExp x < 2 ^ (53 : ℕ) := by
  have hp : (0 : ℚ) < 2 ^ quantumExp x := by positivity
  rw [div_lt_iff₀ hp]
  have h1 : |x| < (2 : ℚ) ^ (exponent x + 1) := abs_lt_zpow_exponent_succ x
  have h2 : exponent x + 1 ≤ 53 + quantumExp x := by
    unfold quantumExp
    have := le_max_left (exponent x - 52) (-1074)
    omega
  have h3 : (2 : ℚ) ^ (exponent x + 1) ≤ 2 ^ (53 + quantumExp x) :=
    zpow_le_zpow_right₀ (by norm_num) h2
  have h4 : (2 : ℚ) ^ (53 + quantumExp x) = 2 ^ (53 : ℕ) * 2 ^ quantumExp x := by
    rw [zpow_add₀ (by norm_num : (2 : ℚ) ≠ 0)]
    norm_num
  linarith

/-- When the quantum of `x` is above the subnormal one, the quotient of `x` by its quantum
is at least `2 ^ 52` in magnitude. -/
theorem le_abs_div_quantum {x : ℚ} (hx : x ≠ 0) (hq : -1074 < quantumExp x) :
    (2 : ℚ) ^ (52 : ℕ) ≤ |x| / 2 ^ quantumExp x := by
  have hp : (0 : ℚ) < 2 ^ quantumExp x := by positivity
  rw [le_div_iff₀ hp]
  have h1 := zpow_exponent_le_abs hx
  have h2 : quantumExp x = exponent x - 52 := by
    unfold quantumExp at hq ⊢
    rcases max_cases (exponent x - 52) (-1074) with ⟨h, _⟩ | ⟨h, _⟩
    · exact h
    · rw [h] at hq; omega
  have h4 : (2 : ℚ) ^ (52 : ℕ) * 2 ^ quantumExp x = 2 ^ exponent x := by
    rw [h2, zpow_sub₀ (by norm_num : (2 : ℚ) ≠ 0)]
    norm_num
    ring
  linarith

theorem rnd_nonneg {x : ℚ} (h : 0 ≤ x) : 0 ≤ rnd x := by
  unfold rnd
  have hp := quantum_pos x
  have h1 : ((0 : Int) : ℚ) ≤ x / quantum x := by
    simpa using div_nonneg h hp.le
  have h2 : (0 : ℚ) ≤ ((roundHalfEven (x / quantum x) : Int) : ℚ) := by
    exact_mod_cast intCast_le_roundHalfEven h1
  exact mul_nonneg h2 hp.le

theorem rnd_nonpos {x : ℚ} (h : x ≤ 0) : rnd x ≤ 0 := by
  unfold rnd
  have hp := quantum_pos x
  have h1 : x / quantum x ≤ ((0 : Int) : ℚ) := by
    simpa using div_nonpos_of_nonpos_of_nonneg h hp.le
  have h2 : ((roundHalfEven (x / quantum x) : Int) : ℚ) ≤ 0 := by
    exact_mod_cast roundHalfEven_le_intCast h1
  exact mul_nonpos_of_nonpos_of_nonneg h2 hp.le

/-- A positive value rounds to at most `2 ^ 53` quanta. -/
theorem rnd_le_of_pos (x : ℚ) : rnd x ≤ 2 ^ (53 + quantumExp x) := by
  unfold rnd
  rw [quantum_eq]
  have hp : (0 : ℚ) < 2 ^ quantumExp x := by positivity
  have h0 : x / 2 ^ quantumExp x ≤ |x| / 2 ^ quantumExp x :=
    div_le_div_of_nonneg_right (le_abs_self x) hp.le
  have h1 : x / 2 ^ quantumExp x ≤ (((2 : Int) ^ (53 : ℕ) : Int) : ℚ) := by
    have := abs_div_quantum_lt x
    push_cast
    linarith
  have h2 : ((roundHalfEven (x / 2 ^ quantumExp x) : Int) : ℚ) ≤ (2 : ℚ) ^ (53 : ℕ) := by
    exact_mod_cast roundHalfEven_le_intCast h1
  have h4 : (2 : ℚ) ^ (53 + quantumExp x) = 2 ^ (53 : ℕ) * 2 ^ quantumExp x := by
    rw [zpow_add₀ (by norm_num : (2 : ℚ) ≠ 0)]
    norm_num
  rw [h4]
  exact mul_le_mul_of_nonneg_right h2 hp.le

/-- A negative value rounds to at least `- 2 ^ 53` quanta. -/
theorem le_rnd_of_neg (x : ℚ) : -(2 ^ (53 + quantumExp x)) ≤ rnd x := by
  unfold rnd
  rw [quantum_eq]
  have hp : (0 : ℚ) < 2 ^ quantumExp x := by positivity
  have h0 : -(|x| / 2 ^ quantumExp x) ≤ x / 2 ^ quantumExp x := by
    rw [← neg_div]
    exact div_le_div_of_nonneg_right (neg_abs_le x) hp.le
  have h1 : (((-(2 : Int) ^ (53 : ℕ)) : Int) : ℚ) ≤ x / 2 ^ quantumExp x := by
    have := abs_div_quantum_lt x
    push_cast
    linarith
  have h2 : -(2 : ℚ) ^ (53 : ℕ) ≤ ((roundHalfEven (x / 2 ^ quantumExp x) : Int) : ℚ) := by
    exact_mod_cast intCast_le_roundHalfEven h1
  have h4 : (2 : ℚ) ^ (53 + quantumExp x) = 2 ^ (53 : ℕ) * 2 ^ quantumExp x := by
    rw [zpow_add₀ (by norm_num : (2 : ℚ) ≠ 0)]
    norm_num
  rw [h4, ← neg_mul]
  exact mul_le_mul_of_nonneg_right h2 hp.le

/-- A positive value whose quantum is above the subnormal one rounds to at least `2 ^ 52`
quanta. -/
theorem le_rnd_of_pos {x : ℚ} (hx : 0 < x) (hq : -1074 < quantumExp x) :
    (2 : ℚ) ^ (52 + quantumExp x) ≤ rnd x := by
  unfold rnd
  rw [quantum_eq]
  have hp : (0 : ℚ) < 2 ^ quantumExp x := by positivity
  have h1 : ((((2 : Int) ^ (52 : ℕ)) : Int) : ℚ) ≤ x / 2 ^ quantumExp x := by
    have := le_abs_div_quantum hx.ne' hq
    rw [abs_of_pos hx] at this
    push_cast
    exact this
  have h2 : (2 : ℚ) ^ (52 : ℕ) ≤ ((roundHalfEven (x / 2 ^ quantumExp x) : Int) : ℚ) := by
    exact_mod_cast intCast_le_roundHalfEven h1
  have h4 : (2 : ℚ) ^ (52 + quantumExp x) = 2 ^ (52 : ℕ) * 2 ^ quantumExp x := by
    rw [zpow_add₀ (by norm_num : (2 : ℚ) ≠ 0)]
    norm_num
  rw [h4]
  exact mul_le_mul_of_nonneg_right h2 hp.le

/-- A negative value whose quantum is above the subnormal one rounds to at most `- 2 ^ 52`
quanta. -/
theorem rnd_le_of_neg {x : ℚ} (hx : x < 0) (hq : -1074 < quantumExp x) :
    rnd x ≤ -(2 : ℚ) ^ (52 + quantumExp x) := by
  unfold rnd
  rw [quantum_eq]
  have hp : (0 : ℚ) < 2 ^ quantumExp x := by positivity
  have h1 : x / 2 ^ quantumExp x ≤ (((-(2 : Int) ^ (52 : ℕ)) : Int) : ℚ) := by
    have := le_abs_div_quantum hx.ne hq
    rw [abs_of_neg hx, neg_div] at this
    push_cast
    linarith
  have h2 : ((roundHalfEven (x / 2 ^ quantumExp x) : Int) : ℚ) ≤ -(2 : ℚ) ^ (52 : ℕ) := by
    exact_mod_cast roundHalfEven_le_intCast h1
  have h4 : (2 : ℚ) ^ (52 + quantumExp x) = 2 ^ (52 : ℕ) * 2 ^ quantumExp x := by
    rw [zpow_add₀ (by norm_num : (2 : ℚ) ≠ 0)]
    norm_num
  rw [h4, ← neg_mul]
  exact mul_le_mul_of_nonneg_right h2 hp.le

/-- Rounding to binary64 is monotone. -/
theorem rnd_mono {x y : ℚ} (h : x ≤ y) : rnd x ≤ rnd y := by
  rcases le_or_lt x 0 with hx0 | hx0
  · rcases le_or_lt 0 y with hy0 | hy0
    · exact le_trans (rnd_nonpos hx0) (rnd_nonneg hy0)
    · -- x ≤ y < 0
      have hxlt : x < 0 := lt_of_le_of_lt h hy0
      have habs : |y| ≤ |x| := by
        rw [abs_of_neg hy0, abs_of_neg hxlt]; linarith
      have hq := quantumExp_mono_abs hy0.ne habs
      rcases lt_or_eq_of_le hq with hlt | heq
      · have hqx : -1074 < quantumExp x := by
          have : -1074 ≤ quantumExp y := le_max_right _ _
          omega
        have h1 := rnd_le_of_neg hxlt hqx
        have h2 := le_rnd_of_neg y
        have h3 : (2 : ℚ) ^ (53 + quantumExp y) ≤ 2 ^ (52 + quantumExp x) :=
          zpow_le_zpow_right₀ (by norm_num) (by omega)
        linarith
      · exact rnd_mono_same h heq.symm
  · -- 0 < x ≤ y
    have hy0 : 0 < y := lt_of_lt_of_le hx0 h
    have habs : |x| ≤ |y| := by
      rw [abs_of_pos hy0, abs_of_pos hx0]; exact h
    have hq := quantumExp_mono_abs hx0.ne' habs
    rcases lt_or_eq_of_le hq with hlt | heq
    · have hqy : -1074 < quantumExp y := by
        have : -1074 ≤ quantumExp x := le_max_right _ _
        omega
      have h1 := rnd_le_of_pos x
      have h2 := le_rnd_of_pos hy0 hqy
      have h3 : (2 : ℚ) ^ (53 + quantumExp x) ≤ 2 ^ (52 + quantumExp y) :=
        zpow_le_zpow_right₀ (by norm_num) (by omega)
      linarith
    · exact rnd_mono_same h heq

theorem Dbl.round_fin (x : ℚ) (h : |rnd x| < 2 ^ 1024) : Dbl.round (Dbl.fin x) = Dbl.fin (rnd x) := by
  simp [Dbl.round, h]

theorem Dbl.round_eq_fin {x : Dbl} {y : ℚ} (h : Dbl.round x = Dbl.fin y) :
    ∃ x1, x = Dbl.fin x1 ∧ rnd x1 = y ∧ |rnd x1| < 2 ^ 1024 := by
  cases x with
  | nonfin => simp [Dbl.round] at h
  | fin x1 =>
    refine ⟨x1, rfl, ?_⟩
    simp only [Dbl.round] at h
    split_ifs at h with hlt
    exact ⟨Dbl.fin.inj h, hlt⟩

theorem Dbl.round_nonfin : Dbl.round Dbl.nonfin = Dbl.nonfin := rfl

/-- A value that is a double: rounding leaves it as it is. -/
theorem Dbl.rnd_eq_of_round {a : ℚ} (ha : Dbl.round (Dbl.fin a) = Dbl.fin a) :
    rnd a = a ∧ |a| < 2 ^ 1024 := by
  obtain ⟨x1, h1, h2, h3⟩ := Dbl.round_eq_fin ha
  cases h1
  rw [h2] at h3
  exact ⟨h2, h3⟩

theorem ofInt_small_binary64 (i : Nat) (hi : i ≤ 8) :
    Binary64.ofInt (i : Int) = Dbl.fin (i : ℚ) := by
  interval_cases i <;> decide!

theorem rnd_zero : rnd 0 = 0 := by decide!

/-! ## The sub-ranges in binary64 -/

theorem threadRange_eq_fin_binary64 {a b w : ℚ}
    (hT : Binary64.threadRange (Dbl.fin a) (Dbl.fin b) = Dbl.fin w) :
    w = rnd (rnd (b - a) / 8) := by
  unfold Binary64.threadRange Binary64.div Binary64.sub at hT
  have h8 : Binary64.ofInt (NUM_THREADS : Int) = Dbl.fin 8 := by decide!
  rw [h8] at hT
  obtain ⟨x1, h1, h2, -⟩ := Dbl.round_eq_fin hT
  cases hD : Dbl.round (Dbl.fin b - Dbl.fin a) with
  | nonfin => rw [hD] at h1; simp at h1
  | fin D =>
    rw [hD] at h1
    obtain ⟨x2, h3, h4, -⟩ := Dbl.round_eq_fin hD
    rw [Dbl.fin_sub_fin] at h3
    cases h3
    rw [Dbl.fin_div_of_ne _ (by norm_num : (8 : ℚ) ≠ 0)] at h1
    cases h1
    rw [← h2, ← h4]

theorem workerRangeStart_of_threadRange_binary64 {a w : ℚ} {b : Dbl}
    (hT : Binary64.threadRange (Dbl.fin a) b = Dbl.fin w) (i : Nat) (hi : i ≤ 8)
    (h1 : |rnd ((i : ℚ) * w)| < 2 ^ 1024) (h2 : |rnd (a + rnd ((i : ℚ) * w))| < 2 ^ 1024) :
    Binary64.workerRangeStart (Dbl.fin a) b i = Dbl.fin (rnd (a + rnd ((i : ℚ) * w))) := by
  unfold Binary64.workerRangeStart Binary64.add Binary64.mul
  rw [hT, ofInt_small_binary64 i hi, Dbl.fin_mul_fin, Dbl.round_fin _ h1, Dbl.fin_add_fin,
    Dbl.round_fin _ h2]

theorem workerRangeEnd_eq_start_binary64 (a b : Dbl) (i : Nat) :
    Binary64.workerRangeEnd a b i = Binary64.workerRangeStart a b (i + 1) := by
  unfold Binary64.workerRangeEnd Binary64.workerRangeStart
  push_cast
  rfl

/-- When the last sub-range end is finite, so are `threadRange` and every sub-range bound,
and they are the rounded values of the expressions of lines 129 and 130. -/
theorem ranges_of_last_finite_binary64 (a b e : ℚ)
    (ha : Dbl.round (Dbl.fin a) = Dbl.fin a) (hab : a ≤ b)
    (hlast : Binary64.workerRangeEnd (Dbl.fin a) (Dbl.fin b) 7 = Dbl.fin e) :
    ∃ w : ℚ, 0 ≤ w ∧ w = rnd (rnd (b - a) / 8)
      ∧ rnd (a + rnd (8 * w)) = e
      ∧ ∀ i : Nat, i ≤ 8 →
          Binary64.workerRangeStart (Dbl.fin a) (Dbl.fin b) i
            = Dbl.fin (rnd (a + rnd ((i : ℚ) * w))) := by
  obtain ⟨hra, haabs⟩ := Dbl.rnd_eq_of_round ha
  rw [workerRangeEnd_eq_start_binary64] at hlast
  have hlast0 := hlast
  cases hT : Binary64.threadRange (Dbl.fin a) (Dbl.fin b) with
  | nonfin =>
    exfalso
    unfold Binary64.workerRangeStart Binary64.add Binary64.mul at hlast
    rw [hT, ofInt_small_binary64 8 (le_refl _)] at hlast
    have h1 : Dbl.fin ((8 : Nat) : ℚ) * Dbl.nonfin = Dbl.nonfin := rfl
    have h2 : Dbl.fin a + Dbl.nonfin = Dbl.nonfin := rfl
    rw [h1, Dbl.round_nonfin, h2, Dbl.round_nonfin] at hlast
    cases hlast
  | fin w =>
    have hw := threadRange_eq_fin_binary64 hT
    have hw0 : 0 ≤ w := by
      rw [hw]
      apply rnd_nonneg
      apply div_nonneg _ (by norm_num)
      apply rnd_nonneg
      linarith
    unfold Binary64.workerRangeStart Binary64.add Binary64.mul at hlast
    rw [hT, ofInt_small_binary64 8 (le_refl _), Dbl.fin_mul_fin] at hlast
    obtain ⟨x1, h1, h2, h3⟩ := Dbl.round_eq_fin hlast
    cases hP : Dbl.round (Dbl.fin (((8 : Nat) : ℚ) * w)) with
    | nonfin => rw [hP] at h1; simp at h1
    | fin p8 =>
      rw [hP, Dbl.fin_add_fin] at h1
      obtain ⟨x2, h4, h5, h6⟩ := Dbl.round_eq_fin hP
      cases h4
      cases h1
      have h8 : ((8 : Nat) : ℚ) = 8 := by norm_num
      rw [h8] at h5 h6
      rw [← h5] at h2 h3
      refine ⟨w, hw0, hw, h2, ?_⟩
      intro i hi
      have hiw : (0 : ℚ) ≤ (i : ℚ) * w := mul_nonneg (Nat.cast_nonneg i) hw0
      have hi8 : (i : ℚ) * w ≤ 8 * w := by
        have : (i : ℚ) ≤ 8 := by exact_mod_cast hi
        exact mul_le_mul_of_nonneg_right this hw0
      have hP0 : 0 ≤ rnd ((i : ℚ) * w) := rnd_nonneg hiw
      have hP8 : rnd ((i : ℚ) * w) ≤ rnd (8 * w) := rnd_mono hi8
      have hPabs : |rnd ((i : ℚ) * w)| < 2 ^ 1024 := by
        rw [abs_of_nonneg hP0]
        have := le_abs_self (rnd (8 * w))
        linarith
      have hS0 : a ≤ rnd (a + rnd ((i : ℚ) * w)) := by
        have := rnd_mono (show a ≤ a + rnd ((i : ℚ) * w) by linarith)
        rwa [hra] at this
      have hS8 : rnd (a + rnd ((i : ℚ) * w)) ≤ rnd (a + rnd (8 * w)) :=
        rnd_mono (by linarith)
      have hSabs : |rnd (a + rnd ((i : ℚ) * w))| < 2 ^ 1024 := by
        rw [abs_lt] at haabs h3 ⊢
        constructor <;> linarith [haabs.1, h3.2]
      exact workerRangeStart_of_threadRange_binary64 hT i hi hPabs hSabs

theorem loopBody_inner_binary64 (rangeStart rangeEnd : Dbl) (numSteps : Nat)
    (func : Dbl → Dbl) (stepsDone : Int) (ws : List Worker) (i : Nat)
    (hi : i ≠ NUM_THREADS - 1) (hn : (numSteps : Int) < SIZE_MOD) :
    Binary64.loopBody rangeStart rangeEnd numSteps func (stepsDone, ws) i =
      if INT_MIN ≤ stepsDone + (numSteps / NUM_THREADS : Nat) ∧
          stepsDone + (numSteps / NUM_THREADS : Nat) ≤ INT_MAX
      then some (stepsDone + (numSteps / NUM_THREADS : Nat),
        ws ++ [Binary64.workerAt rangeStart rangeEnd func i (numSteps / NUM_THREADS)])
      else none := by
  unfold Binary64.loopBody
  rw [workerNumSteps_inner numSteps stepsDone i hi hn]
  split <;> rfl

theorem loopBody_last_binary64 (rangeStart rangeEnd : Dbl) (numSteps : Nat)
    (func : Dbl → Dbl) (stepsDone : Int) (ws : List Worker) :
    Binary64.loopBody rangeStart rangeEnd numSteps func (stepsDone, ws) (NUM_THREADS - 1) =
      some (stepsDone, ws ++ [Binary64.workerAt rangeStart rangeEnd func (NUM_THREADS - 1)
        (((numSteps : Int) - stepsDone) % SIZE_MOD).toNat]) := by
  unfold Binary64.loopBody
  rw [workerNumSteps_last]
  rfl

/-- As long as `7 * (numSteps / 8)` fits an `int`, the loop builds eight workers: the first
seven with `numSteps / 8` steps, the last with the rest. -/
theorem buildWorkers_of_fits_binary64 (rangeStart rangeEnd : Dbl) (numSteps : Nat)
    (func : Dbl → Dbl) (h : 7 * ((numSteps / 8 : Nat) : Int) ≤ INT_MAX) :
    Binary64.buildWorkers rangeStart rangeEnd numSteps func = some
      [Binary64.workerAt rangeStart rangeEnd func 0 (numSteps / 8),
       Binary64.workerAt rangeStart rangeEnd func 1 (numSteps / 8),
       Binary64.workerAt rangeStart rangeEnd func 2 (numSteps / 8),
       Binary64.workerAt rangeStart rangeEnd func 3 (numSteps / 8),
       Binary64.workerAt rangeStart rangeEnd func 4 (numSteps / 8),
       Binary64.workerAt rangeStart rangeEnd func 5 (numSteps / 8),
       Binary64.workerAt rangeStart rangeEnd func 6 (numSteps / 8),
       Binary64.workerAt rangeStart rangeEnd func 7 (numSteps - 7 * (numSteps / 8))] := by
  have hI : INT_MAX = 2147483647 := rfl
  have hm : INT_MIN = -2147483648 := rfl
  have hS : SIZE_MOD = 18446744073709551616 := rfl
  have hN : NUM_THREADS = 8 := rfl
  have hn : (numSteps : Int) < SIZE_MOD := by
    rw [hS]; rw [hI] at h; omega
  have hlast : (((numSteps : Int) - (0 + ((numSteps / 8 : Nat) : Int) + (numSteps / 8 : Nat)
      + (numSteps / 8 : Nat) + (numSteps / 8 : Nat) + (numSteps / 8 : Nat)
      + (numSteps / 8 : Nat) + (numSteps / 8 : Nat))) % SIZE_MOD).toNat
      = numSteps - 7 * (numSteps / 8) := by
    rw [hS]; rw [hI] at h; omega
  have c (sd : Int) (h1 : 0 ≤ sd) (h2 : sd + ((numSteps / 8 : Nat) : Int) ≤ INT_MAX) :
      (INT_MIN ≤ sd + ((numSteps / NUM_THREADS : Nat) : Int) ∧
        sd + ((numSteps / NUM_THREADS : Nat) : Int) ≤ INT_MAX) := by
    rw [hN, hm]; rw [hI] at h2 ⊢; omega
  unfold Binary64.buildWorkers
  rw [range_NUM_THREADS]
  simp only [List.foldlM_cons, List.foldlM_nil]
  rw [loopBody_inner_binary64 _ _ _ _ _ _ _ (by decide) hn,
    if_pos (c _ (by omega) (by rw [hI] at h ⊢; omega))]
  simp only [Option.some_bind, Option.bind_eq_bind]
  rw [loopBody_inner_binary64 _ _ _ _ _ _ _ (by decide) hn,
    if_pos (c _ (by rw [hN]; omega) (by rw [hN]; rw [hI] at h ⊢; omega))]
  simp only [Option.some_bind, Option.bind_eq_bind]
  rw [loopBody_inner_binary64 _ _ _ _ _ _ _ (by decide) hn,
    if_pos (c _ (by rw [hN]; omega) (by rw [hN]; rw [hI] at h ⊢; omega))]
  simp only [Option.some_bind, Option.bind_eq_bind]
  rw [loopBody_inner_binary64 _ _ _ _ _ _ _ (by decide) hn,
    if_pos (c _ (by rw [hN]; omega) (by rw [hN]; rw [hI] at h ⊢; omega))]
  simp only [Option.some_bind, Option.bind_eq_bind]
  rw [loopBody_inner_binary64 _ _ _ _ _ _ _ (by decide) hn,
    if_pos (c _ (by rw [hN]; omega) (by rw [hN]; rw [hI] at h ⊢; omega))]
  simp only [Option.some_bind, Option.bind_eq_bind]
  rw [loopBody_inner_binary64 _ _ _ _ _ _ _ (by decide) hn,
    if_pos (c _ (by rw [hN]; omega) (by rw [hN]; rw [hI] at h ⊢; omega))]
  simp only [Option.some_bind, Option.bind_eq_bind]
  rw [loopBody_inner_binary64 _ _ _ _ _ _ _ (by decide) hn,
    if_pos (c _ (by rw [hN]; omega) (by rw [hN]; rw [hI] at h ⊢; omega))]
  simp only [Option.some_bind, Option.bind_eq_bind]
  have h7 : (7 : Nat) = NUM_THREADS - 1 := rfl
  rw [h7, loopBody_last_binary64]
  simp only [Option.some_bind, Option.bind_eq_bind, Option.pure_def, Option.map_some',
    List.nil_append, List.append_assoc, List.cons_append, hN]
  rw [hlast]

/-- C2 as stated fails in the arithmetic of `double`. For the job `-1 2^-60` (both bounds are
doubles and `getValidInput` accepts the job) the difference `rangeEnd - rangeStart` rounds to
1, `threadRange` is `1/8`, and the eight workers are built with the ends
`-7/8, ..., -1/8, 0`: the last sub-range ends at 0, not at `rangeEnd = 2^-60`. For the job
`0.2 0.9` the last sub-range ends at `2026619832316723 / 2^51`, one unit in the last place
below the double `0.9 = 8106479329266893 / 2^53`. -/
theorem last_subrange_misses_rangeEnd :
    Dbl.round (Dbl.fin (-1)) = Dbl.fin (-1)
      ∧ Dbl.round (Dbl.fin (1 / 2 ^ 60)) = Dbl.fin (1 / 2 ^ 60)
      ∧ getValidInput 4 (Dbl.fin (-1)) (Dbl.fin (1 / 2 ^ 60)) 8 0 = true
      ∧ (Binary64.buildWorkers (Dbl.fin (-1)) (Dbl.fin (1 / 2 ^ 60)) 8 id).map
          (fun ws => ws.map Worker.rangeEnd)
        = some [Dbl.fin (-7 / 8), Dbl.fin (-3 / 4), Dbl.fin (-5 / 8), Dbl.fin (-1 / 2),
                Dbl.fin (-3 / 8), Dbl.fin (-1 / 4), Dbl.fin (-1 / 8), Dbl.fin 0]
      ∧ Dbl.fin 0 ≠ Dbl.fin (1 / 2 ^ 60)
      ∧ Dbl.round (Dbl.fin (9 / 10)) = Dbl.fin (8106479329266893 / 9007199254740992)
      ∧ Binary64.workerRangeEnd (Dbl.round (Dbl.fin (2 / 10))) (Dbl.round (Dbl.fin (9 / 10))) 7
        = Dbl.fin (2026619832316723 / 2251799813685248)
      ∧ Dbl.fin (2026619832316723 / 2251799813685248)
        ≠ Dbl.fin (8106479329266893 / 9007199254740992) := by
  refine ⟨?_, ?_, ?_, ?_, ?_, ?_, ?_, ?_⟩ <;> decide!

/-- C2 as amended, in the arithmetic of `double`: for doubles `rangeStart <= rangeEnd` whose
last sub-range end `rangeStart + 8 * threadRange` is finite (no overflow), the eight
sub-ranges are contiguous and do not overlap (each ends where the next starts, each is an
interval, a later one never begins before an earlier one ends), the first starts at
`rangeStart`, and their union is exactly the interval from `rangeStart` to that last end.
The last end is `rangeEnd` when `rangeEnd - rangeStart` and its eighth are computed without
rounding. These are the ranges stored in the eight workers, which are built whenever
`numSteps <= 2454267031`. -/
theorem subranges_tile_up_to_last_end (a b e : ℚ)
    (ha : Dbl.round (Dbl.fin a) = Dbl.fin a) (hb : Dbl.round (Dbl.fin b) = Dbl.fin b)
    (hab : a ≤ b)
    (hlast : Binary64.workerRangeEnd (Dbl.fin a) (Dbl.fin b) (NUM_THREADS - 1) = Dbl.fin e) :
    Binary64.workerRangeStart (Dbl.fin a) (Dbl.fin b) 0 = Dbl.fin a
    ∧ (∀ i, Binary64.workerRangeEnd (Dbl.fin a) (Dbl.fin b) i
          = Binary64.workerRangeStart (Dbl.fin a) (Dbl.fin b) (i + 1))
    ∧ (∀ i, i < NUM_THREADS → Binary64.workerRangeStart (Dbl.fin a) (Dbl.fin b) i
          ≤ Binary64.workerRangeEnd (Dbl.fin a) (Dbl.fin b) i)
    ∧ (∀ i j, i < j → j < NUM_THREADS → Binary64.workerRangeEnd (Dbl.fin a) (Dbl.fin b) i
          ≤ Binary64.workerRangeStart (Dbl.fin a) (Dbl.fin b) j)
    ∧ (∀ x : ℚ, (a ≤ x ∧ x ≤ e) ↔
        ∃ i, i < NUM_THREADS ∧ Binary64.workerRangeStart (Dbl.fin a) (Dbl.fin b) i ≤ Dbl.fin x
          ∧ Dbl.fin x ≤ Binary64.workerRangeEnd (Dbl.fin a) (Dbl.fin b) i)
    ∧ (Dbl.round (Dbl.fin (b - a)) = Dbl.fin (b - a) →
        Dbl.round (Dbl.fin ((b - a) / 8)) = Dbl.fin ((b - a) / 8) → e = b)
    ∧ (∀ (numSteps : Nat) (func : Dbl → Dbl), numSteps ≤ 2454267031 →
        ∃ ws, Binary64.buildWorkers (Dbl.fin a) (Dbl.fin b) numSteps func = some ws
          ∧ ws.map (fun w => (w.rangeStart, w.rangeEnd))
            = (List.range NUM_THREADS).map (fun i =>
                (Binary64.workerRangeStart (Dbl.fin a) (Dbl.fin b) i,
                 Binary64.workerRangeEnd (Dbl.fin a) (Dbl.fin b) i))) := by
  have hN : NUM_THREADS = 8 := rfl
  have h71 : NUM_THREADS - 1 = 7 := rfl
  rw [h71] at hlast
  obtain ⟨w, hw0, hw, hS8, hS⟩ := ranges_of_last_finite_binary64 a b e ha hab hlast
  obtain ⟨hra, -⟩ := Dbl.rnd_eq_of_round ha
  have hmono : ∀ i j : Nat, i ≤ j →
      rnd (a + rnd ((i : ℚ) * w)) ≤ rnd (a + rnd ((j : ℚ) * w)) := by
    intro i j hij
    apply rnd_mono
    have : (i : ℚ) * w ≤ (j : ℚ) * w :=
      mul_le_mul_of_nonneg_right (by exact_mod_cast hij) hw0
    have := rnd_mono this
    linarith
  have hS0 : rnd (a + rnd (((0 : Nat) : ℚ) * w)) = a := by
    simp [rnd_zero, hra]
  have hS8' : rnd (a + rnd (((8 : Nat) : ℚ) * w)) = e := by
    have : ((8 : Nat) : ℚ) = 8 := by norm_num
    rw [this]; exact hS8
  have hEnd : ∀ i, i < 8 → Binary64.workerRangeEnd (Dbl.fin a) (Dbl.fin b) i
      = Dbl.fin (rnd (a + rnd (((i + 1 : Nat) : ℚ) * w))) := by
    intro i hi
    rw [workerRangeEnd_eq_start_binary64, hS (i + 1) (by omega)]
  refine ⟨?_, ?_, ?_, ?_, ?_, ?_, ?_⟩
  · rw [hS 0 (by omega), hS0]
  · intro i
    exact workerRangeEnd_eq_start_binary64 _ _ i
  · intro i hi
    rw [hN] at hi
    rw [hEnd i hi, hS i (by omega), Dbl.fin_le_fin]
    exact hmono i (i + 1) (by omega)
  · intro i j hij hj
    rw [hN] at hj
    rw [hEnd i (by omega), hS j (by omega), Dbl.fin_le_fin]
    exact hmono (i + 1) j (by omega)
  · intro x
    constructor
    · rintro ⟨hax, hxe⟩
      by_contra hne
      push_neg at hne
      have key : ∀ i : Nat, i < 8 → rnd (a + rnd (((i + 1 : Nat) : ℚ) * w)) < x := by
        intro i
        induction i with
        | zero =>
          intro hi
          have := hne 0 (by rw [hN]; omega)
          rw [hS 0 (by omega), hEnd 0 hi, Dbl.fin_le_fin, Dbl.fin_le_fin, hS0] at this
          exact not_le.mp (this hax)
        | succ k ih =>
          intro hi
          have hk := ih (by omega)
          have := hne (k + 1) (by rw [hN]; omega)
          rw [hS (k + 1) (by omega), hEnd (k + 1) hi, Dbl.fin_le_fin, Dbl.fin_le_fin] at this
          exact not_le.mp (this hk.le)
      have h7 := key 7 (by omega)
      rw [hS8'] at h7
      linarith
    · rintro ⟨i, hi, h1, h2⟩
      rw [hN] at hi
      rw [hS i (by omega), Dbl.fin_le_fin] at h1
      rw [hEnd i hi, Dbl.fin_le_fin] at h2
      have h3 := hmono 0 i (by omega)
      have h4 := hmono (i + 1) 8 (by omega)
      rw [hS0] at h3
      rw [hS8'] at h4
      constructor <;> linarith
  · intro h1 h2
    obtain ⟨hr1, -⟩ := Dbl.rnd_eq_of_round h1
    obtain ⟨hr2, -⟩ := Dbl.rnd_eq_of_round h2
    obtain ⟨hrb, -⟩ := Dbl.rnd_eq_of_round hb
    rw [← hS8, hw, hr1, hr2]
    have e1 : 8 * ((b - a) / 8) = b - a := by ring
    rw [e1, hr1]
    have e2 : a + (b - a) = b := by ring
    rw [e2, hrb]
  · intro numSteps func hfit
    have hI : INT_MAX = 2147483647 := rfl
    refine ⟨_, buildWorkers_of_fits_binary64 _ _ numSteps func (by rw [hI]; omega), ?_⟩
    rw [range_NUM_THREADS]
    rfl

/-- C2 (amended) at the job `0 1`: the last sub-range ends at 1, which is `rangeEnd`. -/
theorem subranges_tile_up_to_last_end_witness :
    Dbl.round (Dbl.fin 0) = Dbl.fin 0 ∧ Dbl.round (Dbl.fin 1) = Dbl.fin 1 ∧ (0 : ℚ) ≤ 1
      ∧ Binary64.workerRangeEnd (Dbl.fin 0) (Dbl.fin 1) (NUM_THREADS - 1) = Dbl.fin 1
      ∧ Binary64.workerRangeStart (Dbl.fin 0) (Dbl.fin 1) 0 = Dbl.fin 0 :=
  ⟨by decide!, by decide!, by norm_num, by decide!,
    (subranges_tile_up_to_last_end 0 1 1 (by decide!) (by decide!) (by norm_num)
      (by decide!)).1⟩

/-! ## The accumulator in binary64 -/

/-- C7 as stated fails in the arithmetic of `double`. For the job `0.1 0.7 8` with
`f(x) = x`, which `getValidInput` accepts, each worker has one step; when the threads commit
in the order `0, 1, ..., 7` the total is `8646911284551351 / 2^55`
(`0.23999999999999996`), and when they commit in the order `7, 6, ..., 0` it is
`4323455642275675 / 2^54` (`0.23999999999999994`). -/
theorem total_depends_on_commit_order :
    getValidInput 4 (Dbl.round (Dbl.fin (1 / 10))) (Dbl.round (Dbl.fin (7 / 10))) 8 0 = true
      ∧ (Binary64.buildWorkers (Dbl.round (Dbl.fin (1 / 10))) (Dbl.round (Dbl.fin (7 / 10))) 8
            (fun x => x)).map (fun ws => ws.map Binary64.integrateTrap.area)
        = some [Dbl.fin (2972375754064527 / 288230376151711744),
                Dbl.fin (2296835809958953 / 144115188075855872),
                Dbl.fin (388435467860705 / 18014398509481984),
                Dbl.fin (3918131675812335 / 144115188075855872),
                Dbl.fin (2364389804369509 / 72057594037927936),
                Dbl.fin (2769713770832853 / 72057594037927936),
                Dbl.fin (1587518868648101 / 36028797018963968),
                Dbl.fin (1790180851879771 / 36028797018963968)]
      ∧ Binary64.integrateWithChildProcess.child (Dbl.round (Dbl.fin (1 / 10)))
          (Dbl.round (Dbl.fin (7 / 10))) 8 (fun x => x) [0, 1, 2, 3, 4, 5, 6, 7]
        = some (Dbl.fin (8646911284551351 / 36028797018963968))
      ∧ Binary64.integrateWithChildProcess.child (Dbl.round (Dbl.fin (1 / 10)))
          (Dbl.round (Dbl.fin (7 / 10))) 8 (fun x => x) [7, 6, 5, 4, 3, 2, 1, 0]
        = some (Dbl.fin (4323455642275675 / 18014398509481984))
      ∧ Dbl.fin (8646911284551351 / 36028797018963968)
        ≠ Dbl.fin (4323455642275675 / 18014398509481984) := by
  refine ⟨?_, ?_, ?_, ?_, ?_⟩ <;> decide!

theorem foldl_integrateTrap_binary64 (l : List Worker) (init : Dbl) :
    l.foldl (fun totalArea worker => Binary64.integrateTrap worker totalArea) init
      = (l.map Binary64.integrateTrap.area).foldl Binary64.add init := by
  induction l generalizing init with
  | nil => rfl
  | cons w l ih =>
    simp only [List.foldl_cons, List.map_cons]
    rw [ih]
    rfl

/-- C7 as amended: for every job with `numSteps <= 2454267031` the eight workers are built
and the child reports a total. Each worker commits exactly once (the workers taken in commit
order are a rearrangement of the array), and the total is the result of the locked additions
of their partial areas to 0, performed in `double` in the commit order: it is determined by
the job and the commit order. With exact additions the total is the sum of the eight partial
areas and is the same for every commit order. -/
theorem total_adds_each_area_once (rangeStart rangeEnd : Dbl) (numSteps : Nat)
    (func : Dbl → Dbl) (order1 order2 : List Nat) (hfit : numSteps ≤ 2454267031)
    (p1 : order1.Perm (List.range NUM_THREADS)) (p2 : order2.Perm (List.range NUM_THREADS)) :
    (∃ ws, Binary64.buildWorkers rangeStart rangeEnd numSteps func = some ws
        ∧ ws.length = NUM_THREADS
        ∧ (inOrder ws order1).Perm ws
        ∧ Binary64.integrateWithChildProcess.child rangeStart rangeEnd numSteps func order1
          = some (((inOrder ws order1).map Binary64.integrateTrap.area).foldl Binary64.add
              (Dbl.fin 0)))
      ∧ (∃ ws, buildWorkers rangeStart rangeEnd numSteps func = some ws
        ∧ ws.length = NUM_THREADS
        ∧ integrateWithChildProcess.child rangeStart rangeEnd numSteps func order1
          = some (sumAreas ws)
        ∧ integrateWithChildProcess.child rangeStart rangeEnd numSteps func order2
          = some (sumAreas ws)) := by
  have hI : INT_MAX = 2147483647 := rfl
  have hq : 7 * ((numSteps / 8 : Nat) : Int) ≤ INT_MAX := by rw [hI]; omega
  constructor
  · have hb := buildWorkers_of_fits_binary64 rangeStart rangeEnd numSteps func hq
    refine ⟨_, hb, rfl, ?_, ?_⟩
    · exact inOrder_perm _ order1 p1
    · unfold Binary64.integrateWithChildProcess.child
      rw [hb]
      simp only [Option.map_some', Binary64.joinAll, foldl_integrateTrap_binary64]
  · have hb := buildWorkers_of_fits rangeStart rangeEnd numSteps func hq
    refine ⟨_, hb, rfl, ?_, ?_⟩
    · rw [child_eq_sumAreas _ _ _ _ order1 p1, hb]; rfl
    · rw [child_eq_sumAreas _ _ _ _ order2 p2, hb]; rfl

/-- C7 (amended) at the job `0.1 0.7 8` with `f(x) = x`, for the commit orders
`7, 6, ..., 0` and `0, 1, ..., 7`. -/
theorem total_adds_each_area_once_witness :
    8 ≤ 2454267031
      ∧ ([7, 6, 5, 4, 3, 2, 1, 0] : List Nat).Perm (List.range NUM_THREADS)
      ∧ ([0, 1, 2, 3, 4, 5, 6, 7] : List Nat).Perm (List.range NUM_THREADS)
      ∧ ∃ ws, Binary64.buildWorkers (Dbl.round (Dbl.fin (1 / 10)))
            (Dbl.round (Dbl.fin (7 / 10))) 8 (fun x => x) = some ws
          ∧ ws.length = NUM_THREADS
          ∧ (inOrder ws [7, 6, 5, 4, 3, 2, 1, 0]).Perm ws
          ∧ Binary64.integrateWithChildProcess.child (Dbl.round (Dbl.fin (1 / 10)))
              (Dbl.round (Dbl.fin (7 / 10))) 8 (fun x => x) [7, 6, 5, 4, 3, 2, 1, 0]
            = some (((inOrder ws [7, 6, 5, 4, 3, 2, 1, 0]).map
                Binary64.integrateTrap.area).foldl Binary64.add (Dbl.fin 0)) :=
  ⟨by decide, by decide, by decide,
    (total_adds_each_area_once (Dbl.round (Dbl.fin (1 / 10))) (Dbl.round (Dbl.fin (7 / 10))) 8
      (fun x => x) [7, 6, 5, 4, 3, 2, 1, 0] [0, 1, 2, 3, 4, 5, 6, 7] (by decide) (by decide)
      (by decide)).1⟩

end ProcessThread
